import Mathlib

/-!
# Verification of the 1brc aggregation core (`src/main.rs`)

Shallow embedding of the Rust program in `src/main.rs`: a parallel
`<key>;<value>` aggregator.  Byte buffers are modelled as `List ℕ`
(each element a byte value) and the `HashMap` as an association list.

`f32` is modelled exactly: every finite IEEE-754 binary32 value is an
integer multiple of `2^(-149)`, so a finite value is represented by the
integer `value * 2^149` (type `F32` below), and each arithmetic
operation computes the exact rational result and rounds it to the
binary32 grid (round to nearest, ties to even, overflow to the
infinities) by exact integer arithmetic.  Signed zeros and NaN payloads
are not distinguished.  `u32` arithmetic is modelled as `ℕ` with
explicit reduction modulo `2^32`; the `u64` byte offsets of `chunks`
are modelled as exact naturals (offsets into an addressable in-memory
buffer cannot approach `2^64`).  Fallible code returns an `Outcome`,
whose `panicked` constructor records a Rust panic (as opposed to a
returned `Err`).  Loops are given as structural recursion on an
explicit fuel argument that provably dominates the iteration count, so
that every definition evaluates inside the kernel.
-/

/-- Binary-descent step for the base-2 logarithm: fold over a list of
halving bit widths, accumulating the exponent. -/
def il2go : List ℕ → ℕ → ℕ → ℕ
  | [], _, e => e
  | k :: ks, n, e => if 2 ^ k ≤ n then il2go ks (n / 2 ^ k) (e + k) else il2go ks n e

/-- Floor of the base-2 logarithm for `n < 2^512`, by binary descent. -/
def ilog2small (n : ℕ) : ℕ := il2go [256, 128, 64, 32, 16, 8, 4, 2, 1] n 0

/-- Floor of the base-2 logarithm: the unique `e` with
`2^e ≤ n < 2^(e+1)` for `n ≥ 1` (structural fuel recursion peels
`2^512` blocks; any `fuel ≥ n / 2^512` is adequate, and `fuel = n` is
used). -/
def ilog2F : ℕ → ℕ → ℕ
  | 0, n => ilog2small n
  | fuel + 1, n => if 2 ^ 512 ≤ n then ilog2F fuel (n / 2 ^ 512) + 512 else ilog2small n

/-- Floor of the base-2 logarithm. -/
def ilog2 (n : ℕ) : ℕ := ilog2F n n

/-- `divNE a b`: the nearest integer to `a / b`, ties to even (the
IEEE-754 default rounding direction). -/
def divNE (a b : ℕ) : ℕ :=
  let q := a / b
  let r := a % b
  if 2 * r < b then q
  else if b < 2 * r then q + 1
  else if q % 2 = 0 then q else q + 1

/-- Exact model of `f32`: a finite value is represented by the integer
`value * 2^149` (every finite binary32 value is an integer multiple of
`2^(-149)`); signed zeros are conflated. -/
inductive F32 where
  | nan : F32
  | posInf : F32
  | negInf : F32
  | finite (m : ℤ) : F32
deriving DecidableEq, Repr

/-- `f32::MAX` scaled by `2^149`: `(2^24 - 1) * 2^104 * 2^149`. -/
def f32MaxS : ℤ := (2 ^ 24 - 1) * 2 ^ 253

/-- Round the exact value `n / (d * 2^149)` (i.e. the scaled fraction
`n / d`, `d > 0`) to the nearest binary32 value, ties to even: the grid
step at binade `e ≥ -126` is `2^(e-23)` (`2^(e+126)` scaled), constant
`2^(-149)` (`1` scaled) below; magnitudes that round to `≥ 2^128`
(`2^277` scaled) overflow to the infinities. -/
def roundVal (n : ℤ) (d : ℕ) : F32 :=
  if n = 0 then .finite 0
  else
    let s := n.natAbs
    let k := ilog2 (s / d) - 23
    let m := divNE s (d * 2 ^ k) * 2 ^ k
    if 2 ^ 277 ≤ m then (if n < 0 then .negInf else .posInf)
    else .finite (if n < 0 then -(m : ℤ) else (m : ℤ))

/-- `f32` addition: exact addition of scaled values followed by
rounding. -/
def fadd : F32 → F32 → F32
  | .nan, _ => .nan
  | _, .nan => .nan
  | .posInf, .negInf => .nan
  | .negInf, .posInf => .nan
  | .posInf, _ => .posInf
  | _, .posInf => .posInf
  | .negInf, _ => .negInf
  | _, .negInf => .negInf
  | .finite a, .finite b => roundVal (a + b) 1

/-- `f32` multiplication: the exact product `(a/2^149) * (b/2^149)` has
scaled value `a*b / 2^149`; round it. -/
def fmul : F32 → F32 → F32
  | .nan, _ => .nan
  | _, .nan => .nan
  | .posInf, .posInf => .posInf
  | .posInf, .negInf => .negInf
  | .negInf, .posInf => .negInf
  | .negInf, .negInf => .posInf
  | .posInf, .finite b => if b = 0 then .nan else if 0 < b then .posInf else .negInf
  | .finite a, .posInf => if a = 0 then .nan else if 0 < a then .posInf else .negInf
  | .negInf, .finite b => if b = 0 then .nan else if 0 < b then .negInf else .posInf
  | .finite a, .negInf => if a = 0 then .nan else if 0 < a then .negInf else .posInf
  | .finite a, .finite b => roundVal (a * b) (2 ^ 149)

/-- `f32` division: the exact quotient `(a/2^149) / (b/2^149)` has
scaled value `a * 2^149 / b`; round it (division is correctly rounded
in IEEE-754). -/
def fdiv : F32 → F32 → F32
  | .nan, _ => .nan
  | _, .nan => .nan
  | .posInf, .posInf => .nan
  | .posInf, .negInf => .nan
  | .negInf, .posInf => .nan
  | .negInf, .negInf => .nan
  | .posInf, .finite b => if 0 ≤ b then .posInf else .negInf
  | .negInf, .finite b => if 0 ≤ b then .negInf else .posInf
  | .finite _, .posInf => .finite 0
  | .finite _, .negInf => .finite 0
  | .finite a, .finite b =>
      if b = 0 then (if a = 0 then .nan else if 0 < a then .posInf else .negInf)
      else roundVal (if b < 0 then -(a * 2 ^ 149) else a * 2 ^ 149) b.natAbs

/-- `f32::min` (IEEE-754 `minNum`): if one argument is NaN the other is
returned; signed zeros are conflated. -/
def fmin : F32 → F32 → F32
  | .nan, x => x
  | x, .nan => x
  | .negInf, _ => .negInf
  | _, .negInf => .negInf
  | .posInf, x => x
  | x, .posInf => x
  | .finite a, .finite b => .finite (min a b)

/-- `f32::max` (IEEE-754 `maxNum`). -/
def fmax : F32 → F32 → F32
  | .nan, x => x
  | x, .nan => x
  | .posInf, _ => .posInf
  | _, .posInf => .posInf
  | .negInf, x => x
  | x, .negInf => x
  | .finite a, .finite b => .finite (max a b)

/-- `u32` addition (wrapping, as compiled in release mode). -/
def u32add (a b : ℕ) : ℕ := (a + b) % 2 ^ 32

/-- The `u32 → f32` cast of `count` (rounds to nearest for counts above
`2^24`). -/
def u32ToF32 (c : ℕ) : F32 := roundVal ((c : ℤ) * 2 ^ 149) 1

/-- `x` is a finite value lying exactly on the binary32 grid (true of
every finite `f32` the program can hold). -/
def repF32 : F32 → Bool
  | .finite m => decide (roundVal m 1 = .finite m) && decide (|m| ≤ f32MaxS)
  | _ => false

/-- `struct Stats { min: f32, max: f32, sum: f32, count: u32 }`
(aggregated statistics for a single key). -/
structure Stats where
  min : F32
  max : F32
  sum : F32
  count : ℕ
deriving DecidableEq, Repr

/-- `impl Default for Stats`: `min = f32::MAX`, `max = f32::MIN`
(both finite!), `sum = 0.`, `count = 0`. -/
def statsDefault : Stats :=
  { min := .finite f32MaxS, max := .finite (-f32MaxS), sum := .finite 0, count := 0 }

/-- `Stats::singleton(value)`. -/
def Stats.singleton (value : F32) : Stats :=
  { min := value, max := value, sum := value, count := 1 }

/-- `Stats::merge`: componentwise `f32::min` / `f32::max`, `f32` sum,
wrapping `u32` count.  (In the Rust code `self` is mutated in place;
here the merged value is returned.) -/
def mergeStats (a b : Stats) : Stats :=
  { min := fmin a.min b.min
    max := fmax a.max b.max
    sum := fadd a.sum b.sum
    count := u32add a.count b.count }

/-- `Stats::update(value)` = `self.merge(Stats::singleton(value))`. -/
def Stats.update (s : Stats) (value : F32) : Stats :=
  mergeStats s (Stats.singleton value)

/-- `Stats::avg` = `self.sum / self.count as f32`. -/
def statsAvg (s : Stats) : F32 :=
  fdiv s.sum (u32ToF32 s.count)

/-- Result of a call to `parse_f32`: Rust `Option<f32>` plus the
possibility that the call panics (out-of-bounds index). -/
inductive PRes where
  | panicked : PRes
  | fails : PRes
  | ok (v : F32) : PRes
deriving DecidableEq, Repr

/-- `to_digit(c)`: `Some(d)` iff `c` is an ASCII digit `b'0'..=b'9'`;
the digit is then converted exactly to `f32`. -/
def to_digit (c : ℕ) : Option ℕ :=
  if 48 ≤ c ∧ c ≤ 57 then some (c - 48) else none

/-- The `f32` literal `0.1` (the binary32 nearest one tenth). -/
def tenthF32 : F32 := roundVal (2 ^ 149) 10

/-- An exact small-integer `f32` constant (`1.0`, `10.0`, digit values,
`-1.0`: all exactly representable). -/
def fofInt (k : ℤ) : F32 := .finite (k * 2 ^ 149)

/-- The shape dispatch of `parse_f32` (the `match s.len()` after the
optional `-` was stripped into `minus`): shape `d.d` (length 3) and
`dd.d` (length 4); the magnitude is assembled with `f32` arithmetic
(`x*1. + y*0.1` resp. `a*10. + b*1. + c*0.1`, left-associated), and the
result is `minus * magnitude`. -/
def parseShape (minus : F32) : List ℕ → PRes
  | [a, dot, b] =>
    if dot ≠ 46 then .fails
    else
      match to_digit a, to_digit b with
      | some x, some y =>
          let mag := fadd (fmul (fofInt x) (fofInt 1)) (fmul (fofInt y) tenthF32)
          .ok (fmul minus mag)
      | _, _ => .fails
  | [a, b, dot, c] =>
    if dot ≠ 46 then .fails
    else
      match to_digit a, to_digit b, to_digit c with
      | some x, some y, some z =>
          let mag := fadd (fadd (fmul (fofInt x) (fofInt 10)) (fmul (fofInt y) (fofInt 1)))
                          (fmul (fofInt z) tenthF32)
          .ok (fmul minus mag)
      | _, _, _ => .fails
  | _ => .fails

/-- `parse_f32`: the specialized fixed-point parser.  It indexes `s[0]`
before any length check, so the empty slice panics; a leading `-` sets
`minus = -1.0` and is stripped. -/
def parse_f32 (s : List ℕ) : PRes :=
  match s with
  | [] => .panicked
  | c0 :: _ =>
    parseShape (if c0 = 45 then fofInt (-1) else fofInt 1) (if c0 = 45 then s.drop 1 else s)

/-- Kinds of run failure: a returned `anyhow::Error` (tagged with the
context message attached at the failure site) or a thread panic. -/
inductive RunError where
  | missingSemicolon : RunError
  | badFloat : RunError
  | badUtf8 : RunError
deriving DecidableEq, Repr

/-- Result of a fallible computation: success, a returned error, or a
Rust panic. -/
inductive Outcome (α : Type) where
  | ok (a : α) : Outcome α
  | err (e : RunError) : Outcome α
  | panicked : Outcome α
deriving DecidableEq, Repr

/-- `Outcome.isOk`. -/
def Outcome.isOk {α : Type} : Outcome α → Bool
  | .ok _ => true
  | _ => false

/-- `split_once(s, delim)`: split at the first occurrence of `delim`
(excluded); `None` if absent. -/
def split_once (s : List ℕ) (delim : ℕ) : Option (List ℕ × List ℕ) :=
  match s.findIdx? (· = delim) with
  | some i => some (s.take i, s.drop (i + 1))
  | none => none

/-- The `HashMap<Vec<u8>, Stats>` is modelled as an association list
with unique keys (iteration order is the insertion order; the claims
proved below do not depend on the iteration order). -/
abbrev Table : Type := List (List ℕ × Stats)

/-- Lookup (`HashMap::get`). -/
def tfind? (t : Table) (k : List ℕ) : Option Stats :=
  match t.find? (fun p => p.1 = k) with
  | some p => some p.2
  | none => none

/-- The count stored for key `k` (0 if absent). -/
def tcount (t : Table) (k : List ℕ) : ℕ :=
  match tfind? t k with
  | some s => s.count
  | none => 0

/-- Replace the value stored for key `k`. -/
def treplace (t : Table) (k : List ℕ) (s : Stats) : Table :=
  t.map (fun p => if p.1 = k then (p.1, s) else p)

/-- The per-record table update in `chunk_stats`: insert a singleton
for an unseen key, otherwise `st.update(value)` in place. -/
def tableUpdate (t : Table) (k : List ℕ) (v : F32) : Table :=
  match tfind? t k with
  | none => t ++ [(k, Stats.singleton v)]
  | some st => treplace t k (st.update v)

/-- Parse one line (trailing newline already stripped) into key and
value: `split_once(.., b';')` then `parse_f32`, with the error contexts
of `chunk_stats`. -/
def parseLine (line : List ℕ) : Outcome (List ℕ × F32) :=
  match split_once line 59 with
  | none => .err .missingSemicolon
  | some (k, v) =>
    match parse_f32 v with
    | .panicked => .panicked
    | .fails => .err .badFloat
    | .ok x => .ok (k, x)

/-- The key of a line (what precedes the first `;`), if any. -/
def keyOf (line : List ℕ) : Option (List ℕ) :=
  (split_once line 59).map (·.1)

/-- Number of bytes consumed by `read_until(b'\n')` starting at byte
offset `pos`: up to and including the first newline at or after `pos`,
or the rest of the buffer if there is none (0 at or past the end). -/
def readLen (buf : List ℕ) (pos : ℕ) : ℕ :=
  match (buf.drop pos).findIdx? (· = 10) with
  | some j => j + 1
  | none => buf.length - pos

/-- The bytes consumed by `read_until(b'\n')` starting at `pos`. -/
def readSeg (buf : List ℕ) (pos : ℕ) : List ℕ :=
  (buf.drop pos).take (readLen buf pos)

/-- Strip one trailing newline (`if line.ends_with(b"\n") { line.pop() }`). -/
def stripNl (line : List ℕ) : List ℕ :=
  if line.getLast? = some 10 then line.dropLast else line

/-- The scan loop of `chunk_stats`, on fuel: while `curr < endPos`,
read a line (stopping at end of file), strip the newline, parse it and
update the local table.  Each iteration advances `curr` by at least one
byte, so any `fuel > endPos - curr` is adequate. -/
def chunkLoopF : ℕ → List ℕ → ℕ → Table → ℕ → Outcome Table
  | 0, _, _, t, _ => .ok t
  | fuel + 1, buf, endPos, t, curr =>
    if curr < endPos then
      match readLen buf curr with
      | 0 => .ok t
      | n + 1 =>
        match parseLine (stripNl (readSeg buf curr)) with
        | .ok (k, v) => chunkLoopF fuel buf endPos (tableUpdate t k v) (curr + (n + 1))
        | .err e => .err e
        | .panicked => .panicked
    else .ok t

/-- The scan loop of `chunk_stats`, with adequate fuel. -/
def chunkLoop (buf : List ℕ) (endPos : ℕ) (t : Table) (curr : ℕ) : Outcome Table :=
  chunkLoopF (endPos + 1 - curr) buf endPos t curr

/-- `chunk_stats(file, (start, end))`. -/
def chunk_stats (buf : List ℕ) (c : ℕ × ℕ) : Outcome Table :=
  chunkLoop buf c.2 [] c.1

/-- `l.zip l.tail` — Itertools' `tuple_windows()` over the boundary
list. -/
def zipPairs (l : List ℕ) : List (ℕ × ℕ) :=
  l.zip l.tail

/-- `chunks(file, n)`: boundary `0`, then for `i = 1..=n-1` the
position reached by `read_until(b'\n')` after seeking to `len*i/n`,
then `len`; adjacent boundaries are paired into ranges.  CAUTION: this
definition widens the source's `u64` product `len * i` to unbounded ℕ;
it agrees with the exact `u64` model `chunksU` below only when
`len * (n - 1) < 2^64` (see `chunksU_eq_chunks`), and the divergence is
real: `chunksU` (like the release-mode code) wraps and can break the
partition (see `c2_counterexample`). -/
def chunks (buf : List ℕ) (n : ℕ) : List (ℕ × ℕ) :=
  let len := buf.length
  let boundaries :=
    0 :: ((List.range' 1 (n - 1)).map (fun i => len * i / n + readLen buf (len * i / n)) ++ [len])
  zipPairs boundaries

/-- `chunks(file, n)` with exact `u64` arithmetic: in release mode the
product `len * i` wraps modulo `2^64` (as does the boundary sum),
`i` and `n` being `u64` values; the file length itself is a `u64`
value and does not wrap. -/
def chunksU (buf : List ℕ) (n : ℕ) : List (ℕ × ℕ) :=
  let len := buf.length
  let boundaries :=
    0 :: ((List.range' 1 (n - 1)).map (fun i =>
      (len * i % 2 ^ 64 / n + readLen buf (len * i % 2 ^ 64 / n)) % 2 ^ 64) ++ [len])
  zipPairs boundaries

/-- Folding one worker table into the global table
(`stats.entry(k).or_default().merge(st)` for each entry). -/
def mergeInto (g : Table) (t : Table) : Table :=
  t.foldl (fun g p =>
    match tfind? g p.1 with
    | none => g ++ [(p.1, mergeStats statsDefault p.2)]
    | some cur => treplace g p.1 (mergeStats cur p.2)) g

/-- The join-and-fold loop of `main`: join each worker in spawn order,
propagating errors and panics, and fold its table into the global one. -/
def collectTables (buf : List ℕ) (cs : List (ℕ × ℕ)) (g : Table) : Outcome Table :=
  match cs with
  | [] => .ok g
  | c :: rest =>
    match chunk_stats buf c with
    | .ok t => collectTables buf rest (mergeInto g t)
    | .err e => .err e
    | .panicked => .panicked

/-- The global table built by `main` for a given buffer and worker
count. -/
def finalTable (buf : List ℕ) (n : ℕ) : Outcome Table :=
  collectTables buf (chunks buf n) []

/-- All records of the buffer from position `c` on, with their starting
byte offsets (newline stripped), on fuel: any `fuel > buf.length - c`
is adequate. -/
def recordsFromF : ℕ → List ℕ → ℕ → List (ℕ × List ℕ)
  | 0, _, _ => []
  | fuel + 1, buf, c =>
    if c < buf.length then
      match readLen buf c with
      | 0 => []
      | n + 1 => (c, stripNl (readSeg buf c)) :: recordsFromF fuel buf (c + (n + 1))
    else []

/-- All records of the buffer from position `c` on, with their starting
byte offsets. -/
def recordsFrom (buf : List ℕ) (c : ℕ) : List (ℕ × List ℕ) :=
  recordsFromF (buf.length + 1 - c) buf c

/-- The sequence of lines scanned by a worker for the range
`[curr, endPos)`. -/
def linesIn (buf : List ℕ) (endPos curr : ℕ) : List (List ℕ) :=
  ((recordsFrom buf curr).takeWhile (fun r => r.1 < endPos)).map (·.2)

/-- All lines of the buffer. -/
def allLines (buf : List ℕ) : List (List ℕ) :=
  (recordsFrom buf 0).map (·.2)

/-- The records of the whole buffer whose first byte lies in `[a, b)`. -/
def recordsIn (buf : List ℕ) (a b : ℕ) : List (List ℕ) :=
  ((recordsFrom buf 0).filter (fun r => decide (a ≤ r.1) && decide (r.1 < b))).map (·.2)

/-- Sequentially aggregate a list of lines into a table (the effect of
the `chunk_stats` loop on an explicit line list). -/
def aggLines (t : Table) (ls : List (List ℕ)) : Outcome Table :=
  match ls with
  | [] => .ok t
  | l :: rest =>
    match parseLine l with
    | .ok (k, v) => aggLines (tableUpdate t k v) rest
    | .err e => .err e
    | .panicked => .panicked

/-- Every line of the buffer parses (has a `;` and a grammatical
value). -/
def wellFormed (buf : List ℕ) : Prop :=
  ∀ l ∈ allLines buf, (parseLine l).isOk = true

instance (buf : List ℕ) : Decidable (wellFormed buf) := by
  unfold wellFormed
  infer_instance

/-- There is a newline byte at position `p`. -/
def nlAt (buf : List ℕ) (p : ℕ) : Prop :=
  p < buf.length ∧ buf.getD p 0 = 10

instance (buf : List ℕ) (p : ℕ) : Decidable (nlAt buf p) := by
  unfold nlAt
  infer_instance

/-- `b` is a record boundary: the buffer start, a position immediately
after a newline, or at/past the buffer end. -/
def alignedB (buf : List ℕ) (b : ℕ) : Prop :=
  b = 0 ∨ buf.length ≤ b ∨ (0 < b ∧ nlAt buf (b - 1))

instance (buf : List ℕ) (b : ℕ) : Decidable (alignedB buf b) := by
  unfold alignedB
  infer_instance

/-- UTF-8 validity of a byte sequence (the success condition of
`str::from_utf8`). -/
def utf8Valid : List ℕ → Bool
  | [] => true
  | c :: rest =>
    if c ≤ 0x7F then utf8Valid rest
    else
      match rest with
      | c1 :: rest1 =>
        if 0xC2 ≤ c ∧ c ≤ 0xDF then
          decide (0x80 ≤ c1 ∧ c1 ≤ 0xBF) && utf8Valid rest1
        else
          match rest1 with
          | c2 :: rest2 =>
            if c = 0xE0 then
              decide (0xA0 ≤ c1 ∧ c1 ≤ 0xBF) && decide (0x80 ≤ c2 ∧ c2 ≤ 0xBF) && utf8Valid rest2
            else if 0xE1 ≤ c ∧ c ≤ 0xEC then
              decide (0x80 ≤ c1 ∧ c1 ≤ 0xBF) && decide (0x80 ≤ c2 ∧ c2 ≤ 0xBF) && utf8Valid rest2
            else if c = 0xED then
              decide (0x80 ≤ c1 ∧ c1 ≤ 0x9F) && decide (0x80 ≤ c2 ∧ c2 ≤ 0xBF) && utf8Valid rest2
            else if 0xEE ≤ c ∧ c ≤ 0xEF then
              decide (0x80 ≤ c1 ∧ c1 ≤ 0xBF) && decide (0x80 ≤ c2 ∧ c2 ≤ 0xBF) && utf8Valid rest2
            else
              match rest2 with
              | c3 :: rest3 =>
                if c = 0xF0 then
                  decide (0x90 ≤ c1 ∧ c1 ≤ 0xBF) && decide (0x80 ≤ c2 ∧ c2 ≤ 0xBF) &&
                    decide (0x80 ≤ c3 ∧ c3 ≤ 0xBF) && utf8Valid rest3
                else if 0xF1 ≤ c ∧ c ≤ 0xF3 then
                  decide (0x80 ≤ c1 ∧ c1 ≤ 0xBF) && decide (0x80 ≤ c2 ∧ c2 ≤ 0xBF) &&
                    decide (0x80 ≤ c3 ∧ c3 ≤ 0xBF) && utf8Valid rest3
                else if c = 0xF4 then
                  decide (0x80 ≤ c1 ∧ c1 ≤ 0x8F) && decide (0x80 ≤ c2 ∧ c2 ≤ 0xBF) &&
                    decide (0x80 ≤ c3 ∧ c3 ≤ 0xBF) && utf8Valid rest3
                else false
              | [] => false
          | [] => false
      | [] => false

/-- Strict lexicographic byte-order comparison of keys (Rust's `Ord`
on `&str` compares the underlying UTF-8 bytes). -/
def lexLt : List ℕ → List ℕ → Bool
  | [], [] => false
  | [], _ :: _ => true
  | _ :: _, [] => false
  | a :: as_, b :: bs => if a < b then true else if a = b then lexLt as_ bs else false

/-- Non-strict lexicographic byte order. -/
def lexLe (a b : List ℕ) : Bool :=
  lexLt a b || a = b

/-- `pairs.sort_unstable_by_key(|&(name, _)| name)` (a comparison sort
by key; with distinct keys every comparison sort produces this unique
sorted arrangement). -/
def sortPairs (t : Table) : Table :=
  List.insertionSort (fun p q => lexLe p.1 q.1) t

/-- Decimal digit bytes of a natural number, on fuel (any `fuel > n` is
adequate). -/
def natDigitsF : ℕ → ℕ → List ℕ
  | 0, _ => []
  | fuel + 1, n => if n < 10 then [48 + n] else natDigitsF fuel (n / 10) ++ [48 + n % 10]

/-- Decimal digit bytes of a natural number. -/
def natDigits (n : ℕ) : List ℕ := natDigitsF (n + 1) n

/-- `{:.1}` formatting of an `f32`: the exact value rounded to one
fractional decimal digit, round to nearest (ties to even, as in Rust's
float formatting), sign taken from the value.  The value of `.finite m`
is `m / 2^149`, so the rounded count of tenths is
`divNE (10*|m|) 2^149`. -/
def fmtF32 : F32 → List ℕ
  | .nan => [78, 97, 78]
  | .posInf => [105, 110, 102]
  | .negInf => [45, 105, 110, 102]
  | .finite m =>
    let sgn : List ℕ := if m < 0 then [45] else []
    let n := divNE (10 * m.natAbs) (2 ^ 149)
    sgn ++ natDigits (n / 10) ++ [46, 48 + n % 10]

/-- `impl fmt::Display for Stats`: `min/avg/max`, each with `{:.1}`. -/
def displayStats (s : Stats) : List ℕ :=
  fmtF32 s.min ++ [47] ++ fmtF32 (statsAvg s) ++ [47] ++ fmtF32 s.max

/-- One rendered entry of the report: `key=min/avg/max`. -/
def entryBytes (p : List ℕ × Stats) : List ℕ :=
  p.1 ++ [61] ++ displayStats p.2

/-- The printing loop of `print_stats` (with its `first` flag). -/
def renderEntries (ps : List (List ℕ × Stats)) (first : Bool) : List ℕ :=
  match ps with
  | [] => []
  | p :: rest =>
    (if first then [] else [44, 32]) ++ entryBytes p ++ renderEntries rest false

/-- `print_stats`: decode every key (any invalid UTF-8 key is fatal),
sort by key, and print `{entries}` followed by a newline.  The produced
bytes are returned. -/
def print_stats (t : Table) : Outcome (List ℕ) :=
  if t.all (fun p => utf8Valid p.1) then
    .ok ([123] ++ renderEntries (sortPairs t) true ++ [125, 10])
  else .err .badUtf8

/-- The whole run of `main` on an in-memory buffer with `n` workers:
partition, aggregate each chunk, fold the tables, report.  The value
returned is the full standard-output byte sequence. -/
def mainRun (buf : List ℕ) (n : ℕ) : Outcome (List ℕ) :=
  match finalTable buf n with
  | .ok t => print_stats t
  | .err e => .err e
  | .panicked => .panicked

/-- Modelled from the spec (§4.3): the value grammar `['-'] d.d` or
`['-'] dd.d`, bare shapes, as a decidable predicate on byte slices. -/
def grammarShape : List ℕ → Bool
  | [a, dot, b] => decide (48 ≤ a ∧ a ≤ 57) && decide (dot = 46) && decide (48 ≤ b ∧ b ≤ 57)
  | [a, b, dot, c] => decide (48 ≤ a ∧ a ≤ 57) && decide (48 ≤ b ∧ b ≤ 57) &&
      decide (dot = 46) && decide (48 ≤ c ∧ c ≤ 57)
  | _ => false

/-- Modelled from the spec (§4.3): a slice matches the value grammar if
it is a bare shape or a shape preceded by `-`. -/
def matchesGrammar (s : List ℕ) : Bool :=
  grammarShape s || (s.head? = some 45 && grammarShape (s.drop 1))

/-- Modelled from the spec (§4.3): the exact decimal value denoted by a
bare grammatical literal, in tenths (an integer: a literal denotes
`litTenths / 10`). -/
def litTenthsBare : List ℕ → ℤ
  | [a, _, b] => 10 * ((a : ℤ) - 48) + ((b : ℤ) - 48)
  | [a, b, _, c] => 100 * ((a : ℤ) - 48) + 10 * ((b : ℤ) - 48) + ((c : ℤ) - 48)
  | _ => 0

/-- Modelled from the spec (§4.3): the exact decimal value denoted by a
grammatical literal (optionally signed), in tenths. -/
def litTenths (s : List ℕ) : ℤ :=
  if s.head? = some 45 then -litTenthsBare (s.drop 1) else litTenthsBare s

/-- The ASCII digit bytes. -/
def digitsL : List ℕ := List.range' 48 10

/-- All bare `d.d` literals. -/
def shapes3 : List (List ℕ) :=
  digitsL.flatMap (fun a => digitsL.map (fun b => [a, 46, b]))

/-- All bare `dd.d` literals. -/
def shapes4 : List (List ℕ) :=
  digitsL.flatMap (fun a => digitsL.flatMap (fun b => digitsL.map (fun c => [a, b, 46, c])))

/-- Every slice matching the value grammar. -/
def grammarStrings : List (List ℕ) :=
  shapes3 ++ shapes4 ++ (shapes3 ++ shapes4).map (45 :: ·)

/-- Number of lines of the buffer bearing key `k`. -/
def keyCount (buf : List ℕ) (k : List ℕ) : ℕ :=
  (allLines buf).countP (fun l => keyOf l = some k)

/-- The parsed values of the lines bearing key `k`, in input order. -/
def valsOf (k : List ℕ) : List (List ℕ) → List F32
  | [] => []
  | l :: ls =>
    match parseLine l with
    | .ok kv => if kv.1 = k then kv.2 :: valsOf k ls else valsOf k ls
    | _ => valsOf k ls

/-- The deterministic components of a `Stats` value: min, max and
count (everything except the order-sensitive `f32` sum). -/
def mmc (s : Stats) : F32 × F32 × ℕ := (s.min, s.max, s.count)

/-- The min/max/count components of an optional table entry. -/
def mmcOf (o : Option Stats) : Option (F32 × F32 × ℕ) := o.map mmc

/-- Folding a value list into an optional min/max/count triple: an
absent key stays absent on no values and otherwise starts from the
default entry (`Default::default()` merged at first appearance); a
present entry accumulates componentwise, the count wrapping mod
`2^32`. -/
def mmcF (o : Option (F32 × F32 × ℕ)) (vs : List F32) : Option (F32 × F32 × ℕ) :=
  match o, vs with
  | none, [] => none
  | none, v :: tl =>
    some ((v :: tl).foldl fmin statsDefault.min, (v :: tl).foldl fmax statsDefault.max,
      (v :: tl).length % 2 ^ 32)
  | some x, vs => some (vs.foldl fmin x.1, vs.foldl fmax x.2.1, (x.2.2 + vs.length) % 2 ^ 32)

/-- The buffer `"padpadpadpad;0.0\nk;-99.9\nk;99.9\nk;0.1\n"` (four valid
records; key `k` receives the values `-99.9`, `99.9`, `0.1`). -/
def bufC1 : List ℕ :=
  [112, 97, 100, 112, 97, 100, 112, 97, 100, 112, 97, 100, 59, 48, 46, 48, 10,
   107, 59, 45, 57, 57, 46, 57, 10, 107, 59, 57, 57, 46, 57, 10, 107, 59, 48, 46, 49, 10]

/-- The buffer `"NoSemicolon"` (one malformed record). -/
def bufNS : List ℕ := [78, 111, 83, 101, 109, 105, 99, 111, 108, 111, 110]

/-- The buffer `";1.0\n"` (one record with an empty key). -/
def bufSemi : List ℕ := [59, 49, 46, 48, 10]

/-- One line `"k;1.0\n"`. -/
def unitLine : List ℕ := [107, 59, 49, 46, 48, 10]

/-- A buffer of `2^32 + 1` identical lines `"k;1.0\n"` (more records
than a `u32` can count). -/
def bufBig : List ℕ := (List.replicate (2 ^ 32 + 1) unitLine).flatten

/-- A buffer of `1537228672809129302` identical lines `"k;1.0\n"`:
its length is `2^63 + 4` bytes, so in `chunks` with `n = 3` workers
the `u64` product `len * 2` overflows. -/
def bufC2 : List ℕ := (List.replicate 1537228672809129302 unitLine).flatten

/-- Exact negation of an `f32` value. -/
def fneg : F32 → F32
  | .nan => .nan
  | .posInf => .negInf
  | .negInf => .posInf
  | .finite m => .finite (-m)

/-- The four bare literals on which `parse_f32` deviates from the
correctly rounded binary32 value of the literal: `0.9`, `1.9`, `00.9`,
`01.9`. -/
def c5exceptions : List (List ℕ) :=
  [[48, 46, 57], [49, 46, 57], [48, 48, 46, 57], [48, 49, 46, 57]]

/-- Per-literal check for the amended C5: parsing succeeds with a
finite value within `2^(-18)` of the exact decimal value (stated on
integers: `|10*v - litTenths*2^149| ≤ 10*2^131` for the scaled value
`v`), and the value is the correctly rounded literal except on
`c5exceptions`. -/
def c5check (s : List ℕ) : Bool :=
  match parse_f32 s with
  | .ok (.finite v) =>
      decide (|10 * v - litTenths s * 2 ^ 149| ≤ 10 * 2 ^ 131) &&
      (decide (roundVal (litTenths s * 2 ^ 149) 10 = .finite v) || decide (s ∈ c5exceptions))
  | _ => false

/-- Join byte strings with a separator (the observable effect of the
`first`-flag printing loop). -/
def joinSep (sep : List ℕ) : List (List ℕ) → List ℕ
  | [] => []
  | [x] => x
  | x :: rest => x ++ sep ++ joinSep sep rest

set_option maxRecDepth 100000

theorem fadd_comm (a b : F32) : fadd a b = fadd b a := by
  cases a <;> cases b <;> simp [fadd, Int.add_comm]

theorem fmin_comm (a b : F32) : fmin a b = fmin b a := by
  cases a <;> cases b <;> simp [fmin, min_comm]

theorem fmax_comm (a b : F32) : fmax a b = fmax b a := by
  cases a <;> cases b <;> simp [fmax, max_comm]

theorem fmin_assoc (a b c : F32) : fmin (fmin a b) c = fmin a (fmin b c) := by
  cases a <;> cases b <;> cases c <;> simp [fmin, min_assoc]

theorem fmax_assoc (a b c : F32) : fmax (fmax a b) c = fmax a (fmax b c) := by
  cases a <;> cases b <;> cases c <;> simp [fmax, max_assoc]

theorem u32add_comm (a b : ℕ) : u32add a b = u32add b a := by
  unfold u32add
  rw [Nat.add_comm]

theorem u32add_assoc (a b c : ℕ) : u32add (u32add a b) c = u32add a (u32add b c) := by
  unfold u32add
  omega

/-- C1: the claim asserts that the per-key Stats are identical no
matter how many ranges the input is split into.  This fails on the
code: `sum` is accumulated with `f32` addition, which is not
associative.  On the valid four-record buffer `bufC1` the key `"k"`
receives the values `-99.9, 99.9, 0.1`; with one range the sum is
computed as `(-99.9 + 99.9) + 0.1 = 0.1f32`, while with two ranges the
fold computes `-99.9 + (99.9 + 0.1) = -99.9 + 100.0 ≈ 0.0999985`, a
different `f32`.  (min, max and count agree; the sums differ.) -/
theorem c1_counterexample :
    wellFormed bufC1 ∧
    (match finalTable bufC1 1 with | .ok t => tfind? t [107] | _ => none) ≠
      (match finalTable bufC1 2 with | .ok t => tfind? t [107] | _ => none) := by
  constructor
  · decide
  · decide

/-- C7: the claim states the empty Stats has `min = +∞` and
`max = -∞`.  The code's `Default` uses the finite values `f32::MAX`
and `f32::MIN` instead. -/
theorem c7_counterexample :
    statsDefault.count = 0 ∧ statsDefault.sum = .finite 0 ∧
    statsDefault.min ≠ F32.posInf ∧ statsDefault.max ≠ F32.negInf ∧
    statsDefault.min = .finite f32MaxS ∧ statsDefault.max = .finite (-f32MaxS) := by
  refine ⟨rfl, rfl, ?_, ?_, rfl, rfl⟩ <;> decide

/-- C7 (amended): the Stats value with `count = 0` has
`min = f32::MAX`, `max = f32::MIN` (the largest/lowest **finite**
`f32`, not the infinities), `sum = 0`, and is a two-sided identity for
merge on every Stats whose min/max/sum are representable finite `f32`
values and whose count is a `u32`. -/
theorem c7_amended (s : Stats)
    (h1 : repF32 s.min = true) (h2 : repF32 s.max = true) (h3 : repF32 s.sum = true)
    (h4 : s.count < 2 ^ 32) :
    statsDefault.min = .finite f32MaxS ∧ statsDefault.max = .finite (-f32MaxS) ∧
    statsDefault.sum = .finite 0 ∧ statsDefault.count = 0 ∧
    mergeStats statsDefault s = s ∧ mergeStats s statsDefault = s := by
  obtain ⟨mn, mx, sm, ct⟩ := s
  simp only at h1 h2 h3 h4
  cases mn with
  | finite m1 => ?_
  | _ => simp [repF32] at h1
  cases mx with
  | finite m2 => ?_
  | _ => simp [repF32] at h2
  cases sm with
  | finite m3 => ?_
  | _ => simp [repF32] at h3
  simp only [repF32, Bool.and_eq_true, decide_eq_true_eq] at h1 h2 h3
  have hb1 : m1 ≤ f32MaxS := (abs_le.mp h1.2).2
  have hb2 : -f32MaxS ≤ m2 := (abs_le.mp h2.2).1
  refine ⟨rfl, rfl, rfl, rfl, ?_, ?_⟩
  · simp only [mergeStats, statsDefault, fmin, fmax, fadd, u32add, Stats.mk.injEq]
    refine ⟨?_, ?_, ?_, ?_⟩
    · rw [min_eq_right hb1]
    · rw [max_eq_right hb2]
    · rw [Int.zero_add]
      exact h3.1
    · omega
  · simp only [mergeStats, statsDefault, fmin, fmax, fadd, u32add, Stats.mk.injEq]
    refine ⟨?_, ?_, ?_, ?_⟩
    · rw [min_eq_left hb1]
    · rw [max_eq_left hb2]
    · rw [Int.add_zero]
      exact h3.1
    · omega

/-- Witness for `c7_amended` at a concrete Stats value. -/
theorem c7_amended_witness :
    (repF32 (Stats.singleton (.finite (2 ^ 149))).min = true ∧
     repF32 (Stats.singleton (.finite (2 ^ 149))).max = true ∧
     repF32 (Stats.singleton (.finite (2 ^ 149))).sum = true ∧
     (Stats.singleton (.finite (2 ^ 149))).count < 2 ^ 32) ∧
    mergeStats statsDefault (Stats.singleton (.finite (2 ^ 149))) =
      Stats.singleton (.finite (2 ^ 149)) := by
  refine ⟨⟨by decide, by decide, by decide, by decide⟩, ?_⟩
  exact (c7_amended (Stats.singleton (.finite (2 ^ 149)))
    (by decide) (by decide) (by decide) (by decide)).2.2.2.2.1

theorem to_digit_none {c : ℕ} (h : ¬(48 ≤ c ∧ c ≤ 57)) : to_digit c = none := by
  simp [to_digit, h]

/-- A byte slice failing the bare shape grammar makes the shape
dispatch fail, whatever the sign factor. -/
theorem parseShape_notGrammar (m : F32) (s : List ℕ) (h : grammarShape s = false) :
    parseShape m s = .fails := by
  rcases s with _ | ⟨a, _ | ⟨b, _ | ⟨c, _ | ⟨d, _ | ⟨e, t⟩⟩⟩⟩⟩
  · rfl
  · rfl
  · rfl
  · simp only [grammarShape, Bool.and_eq_false_iff, decide_eq_false_iff_not] at h
    simp only [parseShape]
    rcases h with (h | h) | h
    · rw [to_digit_none h]
      split
      · rfl
      · rfl
    · simp [h]
    · rw [to_digit_none h]
      split
      · rfl
      · cases to_digit a <;> rfl
  · simp only [grammarShape, Bool.and_eq_false_iff, decide_eq_false_iff_not] at h
    simp only [parseShape]
    rcases h with ((h | h) | h) | h
    · rw [to_digit_none h]
      split
      · rfl
      · rfl
    · rw [to_digit_none h]
      split
      · rfl
      · cases to_digit a <;> rfl
    · split
      · rfl
      · omega
    · rw [to_digit_none h]
      split
      · rfl
      · cases to_digit a <;> cases to_digit b <;> rfl
  · rfl

/-- C4: the claim says `parse_f32` returns `None` on every
non-grammatical slice, **including the empty slice**.  In fact the code
indexes `s[0]` before any length check, so the empty slice makes it
panic (index out of bounds) instead of returning `None`. -/
theorem c4_counterexample :
    parse_f32 [] = .panicked ∧ PRes.panicked ≠ PRes.fails := by
  exact ⟨rfl, by decide⟩

/-- C4 (amended): for every **non-empty** byte slice that does not
match the grammar `['-'] d.d | ['-'] dd.d` — including `"1.23"`,
`"abc"`, `"12"` and `"-.5"` — `parse_f32` returns `None` (it neither
panics nor coerces); the empty slice instead panics. -/
theorem c4_amended (s : List ℕ) (h1 : s ≠ []) (h2 : matchesGrammar s = false) :
    parse_f32 s = .fails := by
  obtain ⟨c0, t, rfl⟩ := List.exists_cons_of_ne_nil h1
  simp only [matchesGrammar, Bool.or_eq_false_iff, Bool.and_eq_false_iff] at h2
  show parseShape _ _ = .fails
  by_cases hc : c0 = 45
  · subst hc
    simp only [if_pos rfl, List.drop_succ_cons, List.drop_zero]
    apply parseShape_notGrammar
    rcases h2.2 with h | h
    · simp at h
    · simpa using h
  · simp only [if_neg hc]
    exact parseShape_notGrammar _ _ h2.1

/-- Witness for `c4_amended` at `"1.23"`. -/
theorem c4_amended_witness :
    (([49, 46, 50, 51] : List ℕ) ≠ [] ∧ matchesGrammar [49, 46, 50, 51] = false) ∧
    parse_f32 [49, 46, 50, 51] = .fails := by
  exact ⟨⟨by decide, by decide⟩, c4_amended [49, 46, 50, 51] (by decide) (by decide)⟩

theorem roundVal_neg (n : ℤ) (d : ℕ) : roundVal (-n) d = fneg (roundVal n d) := by
  rcases lt_trichotomy n 0 with h | h | h
  · have h1 : ¬(-n = 0) := by omega
    have h2 : ¬(n = 0) := by omega
    have h3 : ¬(-n < 0) := by omega
    simp only [roundVal, if_neg h1, if_neg h2, Int.natAbs_neg, if_pos h, if_neg h3]
    split
    · rfl
    · simp [fneg]
  · subst h
    simp [roundVal, fneg]
  · have h1 : ¬(-n = 0) := by omega
    have h2 : ¬(n = 0) := by omega
    have h3 : -n < 0 := by omega
    have h4 : ¬(n < 0) := by omega
    simp only [roundVal, if_neg h1, if_neg h2, Int.natAbs_neg, if_pos h3, if_neg h4]
    split
    · rfl
    · rfl

theorem fmul_neg_one (x : F32) : fmul (fofInt (-1)) x = fneg (fmul (fofInt 1) x) := by
  cases x with
  | nan => rfl
  | posInf =>
    simp only [fofInt, fmul, fneg]
    norm_num
  | negInf =>
    simp only [fofInt, fmul, fneg]
    norm_num
  | finite m =>
    show roundVal ((-1) * 2 ^ 149 * m) (2 ^ 149) = fneg (roundVal (1 * 2 ^ 149 * m) (2 ^ 149))
    rw [← roundVal_neg]
    ring_nf

theorem litTenths_neg_bare (t : List ℕ) : litTenths (45 :: t) = -litTenthsBare t := rfl

theorem parse_neg_cons (t : List ℕ) : parse_f32 (45 :: t) = parseShape (fofInt (-1)) t := rfl

/-- The shape dispatch with sign `-1` returns the negation of the
dispatch with sign `+1`. -/
theorem parseShape_neg (s : List ℕ) :
    parseShape (fofInt (-1)) s =
      (match parseShape (fofInt 1) s with
       | .ok x => .ok (fneg x)
       | .fails => .fails
       | .panicked => .panicked) := by
  rcases s with _ | ⟨a, _ | ⟨b, _ | ⟨c, _ | ⟨d, _ | ⟨e, t⟩⟩⟩⟩⟩
  · rfl
  · rfl
  · rfl
  · simp only [parseShape]
    split
    · rfl
    · cases to_digit a <;> cases to_digit c <;> simp [fmul_neg_one]
  · simp only [parseShape]
    split
    · rfl
    · cases to_digit a <;> cases to_digit b <;> cases to_digit d <;> simp [fmul_neg_one]
  · rfl

/-- Structure of a bare grammatical literal. -/
theorem grammarShape_cases {t : List ℕ} (h : grammarShape t = true) :
    (∃ a b, t = [a, 46, b] ∧ (48 ≤ a ∧ a ≤ 57) ∧ (48 ≤ b ∧ b ≤ 57)) ∨
    (∃ a b c, t = [a, b, 46, c] ∧ (48 ≤ a ∧ a ≤ 57) ∧ (48 ≤ b ∧ b ≤ 57) ∧ (48 ≤ c ∧ c ≤ 57)) := by
  rcases t with _ | ⟨a, _ | ⟨b, _ | ⟨c, _ | ⟨d, _ | ⟨e, t⟩⟩⟩⟩⟩
  · simp [grammarShape] at h
  · simp [grammarShape] at h
  · simp [grammarShape] at h
  · simp only [grammarShape, Bool.and_eq_true, decide_eq_true_eq] at h
    obtain ⟨⟨ha, hb⟩, hc⟩ := h
    subst hb
    exact Or.inl ⟨a, c, rfl, ha, hc⟩
  · simp only [grammarShape, Bool.and_eq_true, decide_eq_true_eq] at h
    obtain ⟨⟨⟨ha, hb⟩, hc⟩, hd⟩ := h
    subst hc
    exact Or.inr ⟨a, b, d, rfl, ha, hb, hd⟩
  · simp [grammarShape] at h

/-- Every bare grammatical literal is in the enumeration. -/
theorem grammarShape_mem {t : List ℕ} (h : grammarShape t = true) : t ∈ shapes3 ++ shapes4 := by
  have hd : ∀ x : ℕ, 48 ≤ x → x ≤ 57 → x ∈ digitsL := by
    intro x h1 h2
    unfold digitsL
    rw [List.mem_range'_1]
    omega
  rcases grammarShape_cases h with ⟨a, b, rfl, ha, hb⟩ | ⟨a, b, c, rfl, ha, hb, hc⟩
  · apply List.mem_append_left
    exact List.mem_flatMap.mpr ⟨a, hd a ha.1 ha.2,
      List.mem_map.mpr ⟨b, hd b hb.1 hb.2, rfl⟩⟩
  · apply List.mem_append_right
    exact List.mem_flatMap.mpr ⟨a, hd a ha.1 ha.2,
      List.mem_flatMap.mpr ⟨b, hd b hb.1 hb.2, List.mem_map.mpr ⟨c, hd c hc.1 hc.2, rfl⟩⟩⟩

/-- A bare grammatical literal starts with a digit, so `parse_f32` does
not strip a sign. -/
theorem parse_bare {t : List ℕ} (h : grammarShape t = true) :
    parse_f32 t = parseShape (fofInt 1) t := by
  rcases grammarShape_cases h with ⟨a, b, rfl, ha, _⟩ | ⟨a, b, c, rfl, ha, _, _⟩ <;>
  · have : ¬(a = 45) := by omega
    simp [parse_f32, this]

set_option maxHeartbeats 2000000 in
/-- Exhaustive verification of `c5check` over all 1100 bare grammar
literals. -/
theorem c5_enum : ((shapes3 ++ shapes4).all c5check) = true := by decide

theorem litTenths_bare {t : List ℕ} (h : grammarShape t = true) :
    litTenths t = litTenthsBare t := by
  rcases grammarShape_cases h with ⟨a, b, rfl, ha, _⟩ | ⟨a, b, c, rfl, ha, _, _⟩ <;>
  · have hne : ¬(a = 45) := by omega
    simp [litTenths, hne]

/-- C5: the claim says `parse_f32` returns the **exact** floating-point
value represented by the literal.  It does not for `"0.9"`: the
binary32 nearest `0.9` is `15099494 * 2^(-24)` (`0.899999976…`), but the
parser computes `0 + 9 * 0.1f32` which rounds to `15099495 * 2^(-24)`
(`0.900000035…`), one ulp above — a different `f32` value. -/
theorem c5_counterexample :
    matchesGrammar [48, 46, 57] = true ∧
    parse_f32 [48, 46, 57] = .ok (.finite (15099495 * 2 ^ 125)) ∧
    roundVal (litTenths [48, 46, 57] * 2 ^ 149) 10 = .finite (15099494 * 2 ^ 125) ∧
    F32.finite (15099495 * 2 ^ 125 : ℤ) ≠ .finite (15099494 * 2 ^ 125) := by
  refine ⟨by decide, by decide, by decide, by decide⟩

/-- C5 (amended): for every byte slice matching the grammar, `parse_f32`
returns a finite value within `2^(-18)` of the exact decimal value
(stated on `2^149`-scaled integers: the value `v/2^149` and the literal
`litTenths/10` satisfy `|10v - litTenths*2^149| ≤ 10*2^131`); the value
is the **correctly rounded** literal except for `0.9`, `1.9`, `00.9`,
`01.9` and their negations, where it is one ulp off.  The spec's three
examples `"5.0"`, `"-9.8"`, `"23.4"` do parse to the exact binary32
values of those literals. -/
theorem c5_amended (s : List ℕ) (h : matchesGrammar s = true) :
    (∃ v : ℤ, parse_f32 s = .ok (.finite v) ∧
      |10 * v - litTenths s * 2 ^ 149| ≤ 10 * 2 ^ 131 ∧
      (roundVal (litTenths s * 2 ^ 149) 10 = .finite v ∨
        s ∈ c5exceptions ∨ s.drop 1 ∈ c5exceptions)) ∧
    parse_f32 [53, 46, 48] = .ok (.finite (5 * 2 ^ 149)) ∧
    parse_f32 [45, 57, 46, 56] = .ok (.finite (-(10276045 * 2 ^ 129))) ∧
    parse_f32 [50, 51, 46, 52] = .ok (.finite (12268339 * 2 ^ 130)) := by
  refine ⟨?_, by decide, by decide, by decide⟩
  simp only [matchesGrammar, Bool.or_eq_true, Bool.and_eq_true, decide_eq_true_eq] at h
  rcases h with h | ⟨hh, hg⟩
  · have hch := List.all_eq_true.mp c5_enum s (grammarShape_mem h)
    unfold c5check at hch
    cases hp : parse_f32 s with
    | ok v =>
      cases v with
      | finite m =>
        rw [hp] at hch
        simp only [Bool.and_eq_true, Bool.or_eq_true, decide_eq_true_eq] at hch
        exact ⟨m, rfl, hch.1, hch.2.elim Or.inl (fun hm => Or.inr (Or.inl hm))⟩
      | nan => rw [hp] at hch; simp at hch
      | posInf => rw [hp] at hch; simp at hch
      | negInf => rw [hp] at hch; simp at hch
    | fails => rw [hp] at hch; simp at hch
    | panicked => rw [hp] at hch; simp at hch
  · obtain ⟨c0, t, rfl⟩ : ∃ c0 t, s = c0 :: t := by
      cases s with
      | nil => simp at hh
      | cons c0 t => exact ⟨c0, t, rfl⟩
    have hc0 : c0 = 45 := by simpa using hh
    subst hc0
    simp only [List.drop_succ_cons, List.drop_zero] at hg
    have hch := List.all_eq_true.mp c5_enum t (grammarShape_mem hg)
    unfold c5check at hch
    cases hp : parse_f32 t with
    | ok v =>
      cases v with
      | finite m =>
        rw [hp] at hch
        simp only [Bool.and_eq_true, Bool.or_eq_true, decide_eq_true_eq] at hch
        refine ⟨-m, ?_, ?_, ?_⟩
        · rw [parse_neg_cons, parseShape_neg, ← parse_bare hg, hp]
          rfl
        · rw [litTenths_neg_bare, litTenths_bare hg] at *
          have heq : 10 * -m - -litTenthsBare t * 2 ^ 149 =
              -(10 * m - litTenthsBare t * 2 ^ 149) := by ring
          rw [heq, abs_neg]
          exact hch.1
        · rcases hch.2 with hex | hm
          · left
            rw [litTenths_neg_bare, neg_mul, roundVal_neg]
            rw [litTenths_bare hg] at hex
            rw [hex]
            rfl
          · right
            right
            simpa using hm
      | nan => rw [hp] at hch; simp at hch
      | posInf => rw [hp] at hch; simp at hch
      | negInf => rw [hp] at hch; simp at hch
    | fails => rw [hp] at hch; simp at hch
    | panicked => rw [hp] at hch; simp at hch

/-- Witness for `c5_amended` at `"0.1"`. -/
theorem c5_amended_witness :
    matchesGrammar [48, 46, 49] = true ∧
    (∃ v : ℤ, parse_f32 [48, 46, 49] = .ok (.finite v) ∧
      |10 * v - litTenths [48, 46, 49] * 2 ^ 149| ≤ 10 * 2 ^ 131 ∧
      (roundVal (litTenths [48, 46, 49] * 2 ^ 149) 10 = .finite v ∨
        [48, 46, 49] ∈ c5exceptions ∨ [48, 46, 49].drop 1 ∈ c5exceptions)) := by
  exact ⟨by decide, (c5_amended [48, 46, 49] (by decide)).1⟩

theorem nlAt_iff_getD {buf : List ℕ} {p : ℕ} (h : p < buf.length) :
    nlAt buf p ↔ buf.getD p 0 = 10 := by
  unfold nlAt
  simp [h]

theorem readLen_eq_some {buf : List ℕ} {pos j : ℕ}
    (hf : (buf.drop pos).findIdx? (· = 10) = some j) : readLen buf pos = j + 1 := by
  unfold readLen
  rw [hf]

theorem readLen_eq_none {buf : List ℕ} {pos : ℕ}
    (hf : (buf.drop pos).findIdx? (· = 10) = none) : readLen buf pos = buf.length - pos := by
  unfold readLen
  rw [hf]

theorem drop_getD {buf : List ℕ} {pos q : ℕ} (h1 : pos ≤ q) (h2 : q < buf.length) :
    (buf.drop pos)[q - pos]? = some (buf.getD q 0) := by
  rw [List.getElem?_drop]
  have hq : pos + (q - pos) = q := by omega
  rw [hq, List.getElem?_eq_getElem h2, List.getD_eq_getElem?_getD, List.getElem?_eq_getElem h2]
  rfl

theorem readLen_pos {buf : List ℕ} {pos : ℕ} (h : pos < buf.length) : 1 ≤ readLen buf pos := by
  cases hf : (buf.drop pos).findIdx? (· = 10) with
  | some j => rw [readLen_eq_some hf]; omega
  | none => rw [readLen_eq_none hf]; omega

theorem bnd_le_len {buf : List ℕ} {pos : ℕ} (h : pos ≤ buf.length) :
    pos + readLen buf pos ≤ buf.length := by
  cases hf : (buf.drop pos).findIdx? (· = 10) with
  | some j =>
    rw [readLen_eq_some hf]
    obtain ⟨hj, -, -⟩ := List.findIdx?_eq_some_iff_getElem.mp hf
    rw [List.length_drop] at hj
    omega
  | none =>
    rw [readLen_eq_none hf]
    omega

/-- Characterization of `pos + readLen buf pos`: one past the first
newline at or after `pos`, or the buffer end if there is none. -/
theorem bnd_cases (buf : List ℕ) {pos : ℕ} (h : pos ≤ buf.length) :
    (∃ p, pos ≤ p ∧ nlAt buf p ∧ (∀ q, pos ≤ q → q < p → ¬nlAt buf q) ∧
        pos + readLen buf pos = p + 1) ∨
    ((∀ p, pos ≤ p → ¬nlAt buf p) ∧ pos + readLen buf pos = buf.length) := by
  cases hf : (buf.drop pos).findIdx? (· = 10) with
  | some j =>
    obtain ⟨hj, hpj, hmin⟩ := List.findIdx?_eq_some_iff_getElem.mp hf
    have hjlen : j < buf.length - pos := by rwa [List.length_drop] at hj
    left
    refine ⟨pos + j, by omega, ?_, ?_, by rw [readLen_eq_some hf]; omega⟩
    · rw [nlAt_iff_getD (by omega)]
      have hd := drop_getD (show pos ≤ pos + j by omega) (show pos + j < buf.length by omega)
      have hj' : pos + j - pos = j := by omega
      rw [hj', List.getElem?_eq_getElem hj] at hd
      have hv : (buf.drop pos)[j] = buf.getD (pos + j) 0 := Option.some.inj hd
      rw [hv] at hpj
      exact of_decide_eq_true hpj
    · intro q hq1 hq2 hnl
      have hqlen : q < buf.length := hnl.1
      have hdq : q - pos < (buf.drop pos).length := by rw [List.length_drop]; omega
      have hd := drop_getD hq1 hqlen
      rw [List.getElem?_eq_getElem hdq] at hd
      have hv : (buf.drop pos)[q - pos] = buf.getD q 0 := Option.some.inj hd
      apply hmin (q - pos) (by omega)
      rw [hv]
      exact decide_eq_true ((nlAt_iff_getD hqlen).mp hnl)
  | none =>
    right
    have hall := List.findIdx?_eq_none_iff.mp hf
    refine ⟨?_, by rw [readLen_eq_none hf]; omega⟩
    intro p hp hnl
    have hplen : p < buf.length := hnl.1
    have hdp : p - pos < (buf.drop pos).length := by rw [List.length_drop]; omega
    have hd := drop_getD hp hplen
    rw [List.getElem?_eq_getElem hdp] at hd
    have hv : (buf.drop pos)[p - pos] = buf.getD p 0 := Option.some.inj hd
    have hmem := hall ((buf.drop pos)[p - pos]) (List.getElem_mem hdp)
    rw [hv, decide_eq_false_iff_not] at hmem
    exact hmem ((nlAt_iff_getD hplen).mp hnl)

/-- Monotonicity of the after-next-newline position. -/
theorem bnd_mono (buf : List ℕ) {c c' : ℕ} (h : c ≤ c') (h2 : c' ≤ buf.length) :
    c + readLen buf c ≤ c' + readLen buf c' := by
  rcases bnd_cases buf (show c ≤ buf.length by omega) with
    ⟨p, hp1, hp2, hp3, hp4⟩ | ⟨hnone, hlen⟩
  · rcases bnd_cases buf h2 with ⟨p', hp1', hp2', hp3', hp4'⟩ | ⟨hnone', hlen'⟩
    · have : p ≤ p' := by
        by_contra hcon
        exact hp3 p' (by omega) (by omega) hp2'
      omega
    · have : p < buf.length := hp2.1
      omega
  · rcases bnd_cases buf h2 with ⟨p', hp1', hp2', hp3', hp4'⟩ | ⟨hnone', hlen'⟩
    · exact absurd hp2' (hnone p' (by omega))
    · omega

/-- The position reached by `read_until` is a record boundary. -/
theorem bnd_aligned (buf : List ℕ) (pos : ℕ) : alignedB buf (pos + readLen buf pos) := by
  by_cases h : pos ≤ buf.length
  · rcases bnd_cases buf h with ⟨p, hp1, hp2, hp3, hp4⟩ | ⟨hnone, hlen⟩
    · right
      right
      rw [hp4]
      exact ⟨by omega, by simpa using hp2⟩
    · right
      left
      omega
  · right
    left
    cases hf : (buf.drop pos).findIdx? (· = 10) with
    | some j =>
      obtain ⟨hj, -, -⟩ := List.findIdx?_eq_some_iff_getElem.mp hf
      rw [List.length_drop] at hj
      omega
    | none =>
      rw [readLen_eq_none hf]
      omega

theorem off_le_len {len i n : ℕ} (hn : 1 ≤ n) (hi : i ≤ n) : len * i / n ≤ len := by
  have h1 : len * i / n ≤ len * n / n := Nat.div_le_div_right (Nat.mul_le_mul_left len hi)
  have h2 : len * n / n = len := Nat.mul_div_cancel len hn
  omega

theorem zipPairs_length (l : List ℕ) : (zipPairs l).length = l.length - 1 := by
  unfold zipPairs
  rw [List.length_zip, List.length_tail]
  omega

theorem zipPairs_getD (l : List ℕ) (i : ℕ) (h : i + 1 < l.length) :
    (zipPairs l).getD i (0, 0) = (l.getD i 0, l.getD (i + 1) 0) := by
  induction l generalizing i with
  | nil => simp at h
  | cons a t ih =>
    cases t with
    | nil => simp at h
    | cons b t2 =>
      cases i with
      | zero => rfl
      | succ i =>
        have hz : zipPairs (a :: b :: t2) = (a, b) :: zipPairs (b :: t2) := rfl
        rw [hz, List.getD_cons_succ, List.getD_cons_succ, List.getD_cons_succ]
        exact ih i (by simpa using h)

theorem boundaries_getD (buf : List ℕ) (n : ℕ) {i : ℕ} (h1 : 1 ≤ i) (h2 : i ≤ n) :
    (0 :: ((List.range' 1 (n - 1)).map
        (fun j => buf.length * j / n + readLen buf (buf.length * j / n)) ++ [buf.length])).getD i 0
      = if i < n then buf.length * i / n + readLen buf (buf.length * i / n) else buf.length := by
  obtain ⟨i', rfl⟩ : ∃ i', i = i' + 1 := ⟨i - 1, by omega⟩
  rw [List.getD_cons_succ, List.getD_eq_getElem?_getD, List.getElem?_append]
  by_cases hi : i' < n - 1
  · have hlen : i' < ((List.range' 1 (n - 1)).map
        (fun j => buf.length * j / n + readLen buf (buf.length * j / n))).length := by
      rw [List.length_map, List.length_range']
      omega
    rw [if_pos hlen, List.getElem?_map, List.getElem?_range' 1 1 hi]
    have he : 1 + 1 * i' = i' + 1 := by omega
    rw [he]
    simp only [Option.map_some', Option.getD_some]
    rw [if_pos (by omega)]
  · have hlen : ¬ i' < ((List.range' 1 (n - 1)).map
        (fun j => buf.length * j / n + readLen buf (buf.length * j / n))).length := by
      rw [List.length_map, List.length_range']
      omega
    have hieq : i' = n - 1 := by omega
    rw [if_neg hlen]
    rw [List.length_map, List.length_range']
    have hz : i' - (n - 1) = 0 := by omega
    rw [hz]
    simp only [List.getElem?_cons_zero, Option.getD_some]
    rw [if_neg (by omega)]

/-- C2: `chunks` returns exactly `n` half-open ranges forming a
contiguous, non-overlapping, exact partition of `[0, L)`, with
`start_0 = 0`, `end_(n-1) = L`, `end_i = start_(i+1)`, and every
interior boundary immediately after a newline at or after `L*i/n`, or
at `L` if no such newline exists. -/
theorem c2_chunks (buf : List ℕ) (n : ℕ) (hn : 1 ≤ n) :
    (chunks buf n).length = n ∧
    ((chunks buf n).getD 0 (0, 0)).1 = 0 ∧
    ((chunks buf n).getD (n - 1) (0, 0)).2 = buf.length ∧
    (∀ i, i + 1 < n → ((chunks buf n).getD i (0, 0)).2 = ((chunks buf n).getD (i + 1) (0, 0)).1) ∧
    (∀ i, i < n → ((chunks buf n).getD i (0, 0)).1 ≤ ((chunks buf n).getD i (0, 0)).2) ∧
    (∀ i, 1 ≤ i → i < n →
      (∃ p, buf.length * i / n ≤ p ∧ nlAt buf p ∧ ((chunks buf n).getD i (0, 0)).1 = p + 1) ∨
      (((chunks buf n).getD i (0, 0)).1 = buf.length ∧
        ∀ p, buf.length * i / n ≤ p → ¬nlAt buf p)) := by
  have hch : chunks buf n =
      zipPairs (0 :: ((List.range' 1 (n - 1)).map
        (fun j => buf.length * j / n + readLen buf (buf.length * j / n)) ++ [buf.length])) := rfl
  have hbl_len : (0 :: ((List.range' 1 (n - 1)).map
      (fun j => buf.length * j / n + readLen buf (buf.length * j / n)) ++ [buf.length])).length
      = n + 1 := by
    simp only [List.length_cons, List.length_append, List.length_map, List.length_range',
      List.length_nil]
    omega
  have hB : ∀ i, 1 ≤ i → i ≤ n →
      (0 :: ((List.range' 1 (n - 1)).map
        (fun j => buf.length * j / n + readLen buf (buf.length * j / n)) ++ [buf.length])).getD i 0
      = if i < n then buf.length * i / n + readLen buf (buf.length * i / n) else buf.length :=
    fun i h1 h2 => boundaries_getD buf n h1 h2
  have hget : ∀ i, i < n → (chunks buf n).getD i (0, 0) =
      ((0 :: ((List.range' 1 (n - 1)).map
        (fun j => buf.length * j / n + readLen buf (buf.length * j / n)) ++ [buf.length])).getD i 0,
       (0 :: ((List.range' 1 (n - 1)).map
        (fun j => buf.length * j / n + readLen buf (buf.length * j / n)) ++ [buf.length])).getD (i + 1) 0) := by
    intro i hi
    rw [hch]
    exact zipPairs_getD _ i (by rw [hbl_len]; omega)
  refine ⟨?_, ?_, ?_, ?_, ?_, ?_⟩
  · rw [hch, zipPairs_length, hbl_len]
    omega
  · rw [hget 0 (by omega)]
    simp
  · rw [hget (n - 1) (by omega)]
    have he : n - 1 + 1 = n := by omega
    rw [he]
    simp only
    rw [hB n (by omega) (by omega), if_neg (by omega)]
  · intro i hi
    rw [hget i (by omega), hget (i + 1) (by omega)]
  · intro i hi
    rw [hget i (by omega)]
    simp only
    rcases Nat.eq_zero_or_pos i with hz | hpos
    · subst hz
      simp only [List.getD_cons_zero]
      exact Nat.zero_le _
    · rw [hB i (by omega) (by omega), if_pos hi, hB (i + 1) (by omega) (by omega)]
      by_cases hi1 : i + 1 < n
      · rw [if_pos hi1]
        apply bnd_mono buf
        · exact Nat.div_le_div_right (Nat.mul_le_mul_left _ (by omega))
        · exact off_le_len hn (by omega)
      · rw [if_neg hi1]
        exact bnd_le_len (off_le_len hn (by omega))
  · intro i h1 h2
    rw [hget i (by omega)]
    simp only
    rw [hB i h1 (by omega), if_pos h2]
    rcases bnd_cases buf (off_le_len hn (show i ≤ n by omega)) with
      ⟨p, hp1, hp2, hp3, hp4⟩ | ⟨hnone, hlen⟩
    · exact Or.inl ⟨p, hp1, hp2, hp4⟩
    · exact Or.inr ⟨hlen, hnone⟩

/-- Witness for `c2_chunks` on the buffer `"a\nbc\n"` with two workers. -/
theorem c2_chunks_witness :
    1 ≤ 2 ∧
    ((chunks [97, 10, 98, 99, 10] 2).length = 2 ∧
     ((chunks [97, 10, 98, 99, 10] 2).getD 0 (0, 0)).1 = 0 ∧
     ((chunks [97, 10, 98, 99, 10] 2).getD (2 - 1) (0, 0)).2 = [97, 10, 98, 99, 10].length ∧
     (∀ i, i + 1 < 2 → ((chunks [97, 10, 98, 99, 10] 2).getD i (0, 0)).2 =
        ((chunks [97, 10, 98, 99, 10] 2).getD (i + 1) (0, 0)).1) ∧
     (∀ i, i < 2 → ((chunks [97, 10, 98, 99, 10] 2).getD i (0, 0)).1 ≤
        ((chunks [97, 10, 98, 99, 10] 2).getD i (0, 0)).2) ∧
     (∀ i, 1 ≤ i → i < 2 →
       (∃ p, [97, 10, 98, 99, 10].length * i / 2 ≤ p ∧ nlAt [97, 10, 98, 99, 10] p ∧
          ((chunks [97, 10, 98, 99, 10] 2).getD i (0, 0)).1 = p + 1) ∨
       (((chunks [97, 10, 98, 99, 10] 2).getD i (0, 0)).1 = [97, 10, 98, 99, 10].length ∧
          ∀ p, [97, 10, 98, 99, 10].length * i / 2 ≤ p → ¬nlAt [97, 10, 98, 99, 10] p))) := by
  exact ⟨by decide, c2_chunks [97, 10, 98, 99, 10] 2 (by decide)⟩

theorem readLen_zero_iff {buf : List ℕ} {pos : ℕ} :
    readLen buf pos = 0 ↔ buf.length ≤ pos := by
  constructor
  · intro h
    by_contra hc
    have := @readLen_pos buf pos (by omega)
    omega
  · intro h
    cases hf : (buf.drop pos).findIdx? (· = 10) with
    | some j =>
      obtain ⟨hj, -, -⟩ := List.findIdx?_eq_some_iff_getElem.mp hf
      rw [List.length_drop] at hj
      omega
    | none =>
      rw [readLen_eq_none hf]
      omega

theorem recordsFromF_congr :
    ∀ (fuel₁ : ℕ) {fuel₂ : ℕ} (buf : List ℕ) (c : ℕ),
      buf.length ≤ c + fuel₁ → buf.length ≤ c + fuel₂ →
      recordsFromF fuel₁ buf c = recordsFromF fuel₂ buf c := by
  intro fuel₁
  induction fuel₁ with
  | zero =>
    intro fuel₂ buf c h1 h2
    cases fuel₂ with
    | zero => rfl
    | succ f =>
      show recordsFromF 0 buf c = recordsFromF (f + 1) buf c
      rw [recordsFromF, recordsFromF]
      rw [if_neg (by omega)]
  | succ f ih =>
    intro fuel₂ buf c h1 h2
    cases fuel₂ with
    | zero =>
      show recordsFromF (f + 1) buf c = recordsFromF 0 buf c
      rw [recordsFromF, recordsFromF]
      rw [if_neg (by omega)]
    | succ f2 =>
      show recordsFromF (f + 1) buf c = recordsFromF (f2 + 1) buf c
      rw [recordsFromF, recordsFromF]
      by_cases hc : c < buf.length
      · rw [if_pos hc, if_pos hc]
        cases hr : readLen buf c with
        | zero => rfl
        | succ n =>
          have := @ih f2 buf (c + (n + 1)) (by omega) (by omega)
          exact congrArg (fun l => (c, stripNl (readSeg buf c)) :: l) this
      · rw [if_neg hc, if_neg hc]

/-- One-step unfolding of `recordsFrom`. -/
theorem recordsFrom_eq (buf : List ℕ) (c : ℕ) :
    recordsFrom buf c =
      if c < buf.length then
        match readLen buf c with
        | 0 => []
        | n + 1 => (c, stripNl (readSeg buf c)) :: recordsFrom buf (c + (n + 1))
      else [] := by
  by_cases hc : c < buf.length
  · have hfl : buf.length + 1 - c = (buf.length - c) + 1 := by omega
    unfold recordsFrom
    rw [hfl, recordsFromF, if_pos hc]
    rw [if_pos hc]
    cases hr : readLen buf c with
    | zero => rfl
    | succ n =>
      have : recordsFromF (buf.length - c) buf (c + (n + 1)) =
          recordsFromF (buf.length + 1 - (c + (n + 1))) buf (c + (n + 1)) :=
        recordsFromF_congr _ buf _ (by omega) (by omega)
      exact congrArg (fun l => (c, stripNl (readSeg buf c)) :: l) this
  · unfold recordsFrom
    rw [if_neg hc]
    cases hfl : buf.length + 1 - c with
    | zero => rfl
    | succ f =>
      rw [recordsFromF, if_neg hc]

theorem chunkLoopF_congr :
    ∀ (fuel₁ : ℕ) {fuel₂ : ℕ} (buf : List ℕ) (endPos : ℕ) (t : Table) (curr : ℕ),
      endPos ≤ curr + fuel₁ → endPos ≤ curr + fuel₂ →
      chunkLoopF fuel₁ buf endPos t curr = chunkLoopF fuel₂ buf endPos t curr := by
  intro fuel₁
  induction fuel₁ with
  | zero =>
    intro fuel₂ buf endPos t curr h1 h2
    cases fuel₂ with
    | zero => rfl
    | succ f =>
      show chunkLoopF 0 buf endPos t curr = chunkLoopF (f + 1) buf endPos t curr
      rw [chunkLoopF, chunkLoopF]
      rw [if_neg (by omega)]
  | succ f ih =>
    intro fuel₂ buf endPos t curr h1 h2
    cases fuel₂ with
    | zero =>
      show chunkLoopF (f + 1) buf endPos t curr = chunkLoopF 0 buf endPos t curr
      rw [chunkLoopF, chunkLoopF]
      rw [if_neg (by omega)]
    | succ f2 =>
      show chunkLoopF (f + 1) buf endPos t curr = chunkLoopF (f2 + 1) buf endPos t curr
      rw [chunkLoopF, chunkLoopF]
      by_cases hc : curr < endPos
      · rw [if_pos hc, if_pos hc]
        cases hr : readLen buf curr with
        | zero => rfl
        | succ n =>
          cases hp : parseLine (stripNl (readSeg buf curr)) with
          | ok kv => exact ih buf endPos _ _ (by omega) (by omega)
          | err e => rfl
          | panicked => rfl
      · rw [if_neg hc, if_neg hc]

/-- One-step unfolding of `chunkLoop`. -/
theorem chunkLoop_eq (buf : List ℕ) (endPos : ℕ) (t : Table) (curr : ℕ) :
    chunkLoop buf endPos t curr =
      if curr < endPos then
        match readLen buf curr with
        | 0 => .ok t
        | n + 1 =>
          match parseLine (stripNl (readSeg buf curr)) with
          | .ok (k, v) => chunkLoop buf endPos (tableUpdate t k v) (curr + (n + 1))
          | .err e => .err e
          | .panicked => .panicked
      else .ok t := by
  by_cases hc : curr < endPos
  · have hfl : endPos + 1 - curr = (endPos - curr) + 1 := by omega
    unfold chunkLoop
    rw [hfl, chunkLoopF, if_pos hc]
    rw [if_pos hc]
    cases hr : readLen buf curr with
    | zero => rfl
    | succ n =>
      cases hp : parseLine (stripNl (readSeg buf curr)) with
      | ok kv =>
        have : chunkLoopF (endPos - curr) buf endPos (tableUpdate t kv.1 kv.2) (curr + (n + 1)) =
            chunkLoopF (endPos + 1 - (curr + (n + 1))) buf endPos (tableUpdate t kv.1 kv.2)
              (curr + (n + 1)) :=
          chunkLoopF_congr _ buf endPos _ _ (by omega) (by omega)
        exact this
      | err e => rfl
      | panicked => rfl
  · unfold chunkLoop
    cases hfl : endPos + 1 - curr with
    | zero =>
      rw [if_neg hc]
      rfl
    | succ f =>
      rw [chunkLoopF, if_neg hc, if_neg hc]

theorem recordsFrom_ge_aux :
    ∀ (l : List (ℕ × List ℕ)) (buf : List ℕ) (c : ℕ),
      recordsFrom buf c = l → ∀ r ∈ l, c ≤ r.1 := by
  intro l
  induction l with
  | nil =>
    intro buf c _ r hr
    simp at hr
  | cons hd tl ih =>
    intro buf c h r hr
    rw [recordsFrom_eq] at h
    by_cases hc : c < buf.length
    · rw [if_pos hc] at h
      cases hrl : readLen buf c with
      | zero =>
        rw [hrl] at h
        simp at h
      | succ n =>
        rw [hrl] at h
        injection h with h1 h2
        rcases List.mem_cons.mp hr with hr | hr
        · rw [hr, ← h1]
        · have := ih buf (c + (n + 1)) h2 r hr
          omega
    · rw [if_neg hc] at h
      simp at h

theorem recordsFrom_ge {buf : List ℕ} {c : ℕ} : ∀ r ∈ recordsFrom buf c, c ≤ r.1 :=
  recordsFrom_ge_aux (recordsFrom buf c) buf c rfl

theorem recordsFrom_lt_len_aux :
    ∀ (l : List (ℕ × List ℕ)) (buf : List ℕ) (c : ℕ),
      recordsFrom buf c = l → ∀ r ∈ l, r.1 < buf.length := by
  intro l
  induction l with
  | nil =>
    intro buf c _ r hr
    simp at hr
  | cons hd tl ih =>
    intro buf c h r hr
    rw [recordsFrom_eq] at h
    by_cases hc : c < buf.length
    · rw [if_pos hc] at h
      cases hrl : readLen buf c with
      | zero =>
        rw [hrl] at h
        simp at h
      | succ n =>
        rw [hrl] at h
        injection h with h1 h2
        rcases List.mem_cons.mp hr with hr | hr
        · rw [hr, ← h1]
          exact hc
        · exact ih buf (c + (n + 1)) h2 r hr
    · rw [if_neg hc] at h
      simp at h

theorem linesIn_of_le {buf : List ℕ} {endPos curr : ℕ} (h : endPos ≤ curr) :
    linesIn buf endPos curr = [] := by
  unfold linesIn
  cases hl : recordsFrom buf curr with
  | nil => rfl
  | cons hd tl =>
    have hge : curr ≤ hd.1 := recordsFrom_ge hd (by rw [hl]; exact List.mem_cons_self hd tl)
    rw [List.takeWhile_cons, if_neg (by simp; omega)]
    rfl

/-- The `chunk_stats` loop is exactly sequential aggregation of the
lines whose start lies before `endPos`. -/
theorem chunkLoop_eq_agg_aux :
    ∀ (l : List (ℕ × List ℕ)) (buf : List ℕ) (endPos curr : ℕ) (t : Table),
      recordsFrom buf curr = l →
      chunkLoop buf endPos t curr = aggLines t (linesIn buf endPos curr) := by
  intro l
  induction l with
  | nil =>
    intro buf endPos curr t h
    rw [chunkLoop_eq]
    unfold linesIn
    rw [h]
    simp only [List.takeWhile_nil, List.map_nil]
    by_cases hc : curr < endPos
    · rw [if_pos hc]
      rw [recordsFrom_eq] at h
      by_cases hlen : curr < buf.length
      · rw [if_pos hlen] at h
        cases hrl : readLen buf curr with
        | zero => rfl
        | succ n =>
          rw [hrl] at h
          simp at h
      · have : readLen buf curr = 0 := readLen_zero_iff.mpr (by omega)
        rw [this]
        rfl
    · rw [if_neg hc]
      rfl
  | cons hd tl ih =>
    intro buf endPos curr t h
    have hcasa := h
    rw [recordsFrom_eq] at hcasa
    by_cases hlen : curr < buf.length
    · rw [if_pos hlen] at hcasa
      cases hrl : readLen buf curr with
      | zero =>
        rw [hrl] at hcasa
        simp at hcasa
      | succ n =>
        rw [hrl] at hcasa
        injection hcasa with h1 h2
        rw [chunkLoop_eq]
        unfold linesIn
        rw [h]
        by_cases hc : curr < endPos
        · rw [if_pos hc, hrl]
          rw [List.takeWhile_cons, if_pos (by rw [← h1]; simpa using hc)]
          rw [List.map_cons, ← h1]
          show _ = aggLines t (stripNl (readSeg buf curr) :: (tl.takeWhile (fun r => r.1 < endPos)).map (·.2))
          rw [aggLines]
          cases hp : parseLine (stripNl (readSeg buf curr)) with
          | ok kv =>
            dsimp only
            rw [ih buf endPos (curr + (n + 1)) (tableUpdate t kv.1 kv.2) h2]
            unfold linesIn
            rw [h2]
          | err e => rfl
          | panicked => rfl
        · rw [if_neg hc]
          rw [List.takeWhile_cons, if_neg (by rw [← h1]; simpa using hc)]
          rfl
    · rw [if_neg hlen] at hcasa
      simp at hcasa

theorem chunkLoop_eq_agg (buf : List ℕ) (endPos curr : ℕ) (t : Table) :
    chunkLoop buf endPos t curr = aggLines t (linesIn buf endPos curr) :=
  chunkLoop_eq_agg_aux (recordsFrom buf curr) buf endPos curr t rfl

theorem takeWhile_all {p : (ℕ × List ℕ) → Bool} :
    ∀ l : List (ℕ × List ℕ), (∀ x ∈ l, p x = true) → l.takeWhile p = l := by
  intro l
  induction l with
  | nil => intro _; rfl
  | cons x t ih =>
    intro h
    rw [List.takeWhile_cons, if_pos (h x (List.mem_cons_self x t)),
      ih (fun y hy => h y (List.mem_cons_of_mem x hy))]

theorem takeWhile_append_all {p : (ℕ × List ℕ) → Bool} :
    ∀ l₁ l₂ : List (ℕ × List ℕ), (∀ x ∈ l₁, p x = true) →
      (l₁ ++ l₂).takeWhile p = l₁ ++ l₂.takeWhile p := by
  intro l₁
  induction l₁ with
  | nil => intro l₂ _; rfl
  | cons x t ih =>
    intro l₂ h
    rw [List.cons_append, List.takeWhile_cons, if_pos (h x (List.mem_cons_self x t)),
      List.cons_append, ih l₂ (fun y hy => h y (List.mem_cons_of_mem x hy))]

theorem filter_eq_takeWhile_records (buf : List ℕ) (b : ℕ) :
    ∀ (l : List (ℕ × List ℕ)) (c : ℕ), recordsFrom buf c = l →
      l.filter (fun r => decide (r.1 < b)) = l.takeWhile (fun r => decide (r.1 < b)) := by
  intro l
  induction l with
  | nil => intro c _; rfl
  | cons hd tl ih =>
    intro c h
    rw [recordsFrom_eq] at h
    by_cases hc : c < buf.length
    · rw [if_pos hc] at h
      cases hrl : readLen buf c with
      | zero =>
        rw [hrl] at h
        simp at h
      | succ n =>
        rw [hrl] at h
        injection h with h1 h2
        by_cases hb : hd.1 < b
        · rw [List.filter_cons, if_pos (by simpa using hb), List.takeWhile_cons,
            if_pos (by simpa using hb), ih (c + (n + 1)) h2]
        · rw [List.filter_cons, if_neg (by simpa using hb), List.takeWhile_cons,
            if_neg (by simpa using hb)]
          rw [List.filter_eq_nil_iff]
          intro r hr
          have hge := @recordsFrom_ge buf (c + (n + 1)) r (by rw [h2]; exact hr)
          have hdc : hd.1 = c := by rw [← h1]
          simp only [decide_eq_true_eq]
          omega
    · rw [if_neg hc] at h
      simp at h

/-- Splitting the record chain at an aligned position `b`: the records
from `a` are those before `b` followed by the records from `b`. -/
theorem recordsFrom_split (buf : List ℕ) :
    ∀ (l : List (ℕ × List ℕ)) (a : ℕ), recordsFrom buf a = l →
      ∀ b, a ≤ b → alignedB buf b →
      l.takeWhile (fun r => decide (r.1 < b)) ++ recordsFrom buf b = l := by
  intro l
  induction l with
  | nil =>
    intro a h b hab _
    simp only [List.takeWhile_nil, List.nil_append]
    have hlen : buf.length ≤ a := by
      rw [recordsFrom_eq] at h
      by_cases hc : a < buf.length
      · rw [if_pos hc] at h
        cases hrl : readLen buf a with
        | zero =>
          have := readLen_zero_iff.mp hrl
          omega
        | succ n =>
          rw [hrl] at h
          simp at h
      · omega
    rw [recordsFrom_eq, if_neg (by omega)]
  | cons hd tl ih =>
    intro a h b hab hal
    have hstep := h
    rw [recordsFrom_eq] at hstep
    by_cases hc : a < buf.length
    · rw [if_pos hc] at hstep
      cases hrl : readLen buf a with
      | zero =>
        rw [hrl] at hstep
        simp at hstep
      | succ n =>
        rw [hrl] at hstep
        injection hstep with h1 h2
        by_cases hab2 : a = b
        · subst hab2
          rw [List.takeWhile_cons, if_neg (by rw [← h1]; simp), List.nil_append]
          exact h
        · have haltb : a < b := by omega
          have hnext : a + (n + 1) ≤ b := by
            rcases hal with rfl | hlenb | ⟨hbpos, hnl⟩
            · omega
            · have hb := @bnd_le_len buf a (by omega)
              rw [hrl] at hb
              omega
            · rcases bnd_cases buf (show a ≤ buf.length by omega) with
                ⟨p, hp1, hp2, hp3, hp4⟩ | ⟨hnone, hl⟩
              · have hple : p ≤ b - 1 := by
                  by_contra hcon
                  exact hp3 (b - 1) (by omega) (by omega) hnl
                rw [hrl] at hp4
                omega
              · exact absurd hnl (hnone (b - 1) (by omega))
          rw [List.takeWhile_cons, if_pos (by rw [← h1]; simpa using haltb), List.cons_append]
          congr 1
          exact ih (a + (n + 1)) h2 b hnext hal
    · rw [if_neg hc] at hstep
      simp at hstep

theorem linesIn_append (buf : List ℕ) {a b c : ℕ} (hab : a ≤ b) (hbc : b ≤ c)
    (hal : alignedB buf b) :
    linesIn buf c a = linesIn buf b a ++ linesIn buf c b := by
  unfold linesIn
  have hsplit := recordsFrom_split buf (recordsFrom buf a) a rfl b hab hal
  conv_lhs => rw [← hsplit]
  rw [takeWhile_append_all _ _ (fun x hx => ?_), List.map_append]
  have hxb := List.mem_takeWhile_imp hx
  simp only [decide_eq_true_eq] at hxb ⊢
  omega

theorem chain_of_getD :
    ∀ (l : List ℕ) (x : ℕ),
      (∀ i, i + 1 < (x :: l).length → (x :: l).getD i 0 ≤ (x :: l).getD (i + 1) 0) →
      List.Chain (· ≤ ·) x l := by
  intro l
  induction l with
  | nil => intro x _; exact List.Chain.nil
  | cons y t ih =>
    intro x h
    refine List.Chain.cons ?_ (ih y ?_)
    · exact h 0 (by simp only [List.length_cons]; omega)
    · intro i hi
      have := h (i + 1) (by simpa using (by omega : i + 2 < (y :: t).length + 1))
      simpa using this

theorem chain_le_last :
    ∀ (l : List ℕ) (x bN : ℕ), List.Chain (· ≤ ·) x l → (x :: l).getLast? = some bN →
      x ≤ bN := by
  intro l
  induction l with
  | nil =>
    intro x bN _ hlast
    simp at hlast
    omega
  | cons y l' ih =>
    intro x bN hchain hlast
    rw [List.chain_cons] at hchain
    rw [List.getLast?_cons_cons] at hlast
    exact le_trans hchain.1 (ih y bN hchain.2 hlast)

/-- Concatenating the per-range line lists over a sorted, aligned
boundary list recovers the line list of the full span. -/
theorem flat_lines_aux (buf : List ℕ) :
    ∀ (rest : List ℕ) (b0 bN : ℕ),
      List.Chain (· ≤ ·) b0 rest →
      (∀ b ∈ rest, alignedB buf b) →
      (b0 :: rest).getLast? = some bN →
      (zipPairs (b0 :: rest)).flatMap (fun c => linesIn buf c.2 c.1) = linesIn buf bN b0 := by
  intro rest
  induction rest with
  | nil =>
    intro b0 bN _ _ hlast
    have hb : bN = b0 := by simpa using hlast.symm
    subst hb
    rw [linesIn_of_le (le_refl bN)]
    rfl
  | cons b1 rest' ih =>
    intro b0 bN hchain hal hlast
    rw [List.chain_cons] at hchain
    rw [List.getLast?_cons_cons] at hlast
    have hz : zipPairs (b0 :: b1 :: rest') = (b0, b1) :: zipPairs (b1 :: rest') := rfl
    rw [hz, List.flatMap_cons]
    rw [ih b1 bN hchain.2 (fun b hb => hal b (List.mem_cons_of_mem b1 hb)) hlast]
    have hb1N : b1 ≤ bN := chain_le_last rest' b1 bN hchain.2 hlast
    exact (linesIn_append buf hchain.1 hb1N (hal b1 (List.mem_cons_self b1 rest'))).symm

theorem allLines_eq_linesIn (buf : List ℕ) : allLines buf = linesIn buf buf.length 0 := by
  unfold allLines linesIn
  rw [takeWhile_all _ (fun x hx => ?_)]
  have := recordsFrom_lt_len_aux (recordsFrom buf 0) buf 0 rfl x hx
  simpa using this

theorem tfind?_cons (p : List ℕ × Stats) (rest : Table) (k : List ℕ) :
    tfind? (p :: rest) k = if p.1 = k then some p.2 else tfind? rest k := by
  unfold tfind?
  by_cases hp : p.1 = k
  · rw [List.find?_cons_of_pos _ (by simpa using hp), if_pos hp]
  · rw [List.find?_cons_of_neg _ (by simpa using hp), if_neg hp]

theorem tfind?_none_of_not_mem : ∀ (t : Table) {k : List ℕ}, k ∉ t.map (·.1) →
    tfind? t k = none := by
  intro t
  induction t with
  | nil => intro k _; rfl
  | cons p rest ih =>
    intro k h
    rw [List.map_cons, List.mem_cons] at h
    push_neg at h
    rw [tfind?_cons, if_neg (fun hc => h.1 hc.symm)]
    exact ih h.2

theorem not_mem_of_tfind?_none : ∀ (t : Table) {k : List ℕ}, tfind? t k = none →
    k ∉ t.map (·.1) := by
  intro t
  induction t with
  | nil => intro k _; simp
  | cons p rest ih =>
    intro k h
    rw [tfind?_cons] at h
    by_cases hp : p.1 = k
    · rw [if_pos hp] at h
      exact absurd h (by simp)
    · rw [if_neg hp] at h
      rw [List.map_cons, List.mem_cons]
      push_neg
      exact ⟨fun hc => hp hc.symm, ih h⟩

theorem tfind?_append_of_none : ∀ (t l : Table) {k : List ℕ}, tfind? t k = none →
    tfind? (t ++ l) k = tfind? l k := by
  intro t
  induction t with
  | nil => intro l k _; rfl
  | cons p rest ih =>
    intro l k h
    rw [tfind?_cons] at h
    rw [List.cons_append, tfind?_cons]
    by_cases hp : p.1 = k
    · rw [if_pos hp] at h
      exact absurd h (by simp)
    · rw [if_neg hp] at h
      rw [if_neg hp]
      exact ih l h

theorem tfind?_append_of_some : ∀ (t l : Table) {k : List ℕ} {st : Stats},
    tfind? t k = some st → tfind? (t ++ l) k = some st := by
  intro t
  induction t with
  | nil =>
    intro l k st h
    exact absurd h (by simp [tfind?])
  | cons p rest ih =>
    intro l k st h
    rw [tfind?_cons] at h
    rw [List.cons_append, tfind?_cons]
    by_cases hp : p.1 = k
    · rwa [if_pos hp] at h ⊢
    · rw [if_neg hp] at h ⊢
      exact ih l h

theorem treplace_cons (p : List ℕ × Stats) (rest : Table) (k : List ℕ) (s : Stats) :
    treplace (p :: rest) k s = (if p.1 = k then (p.1, s) else p) :: treplace rest k s := rfl

theorem tfind?_treplace_other : ∀ (t : Table) {k k' : List ℕ} (s : Stats), k' ≠ k →
    tfind? (treplace t k s) k' = tfind? t k' := by
  intro t
  induction t with
  | nil => intro k k' s _; rfl
  | cons p rest ih =>
    intro k k' s h
    rw [treplace_cons, tfind?_cons, tfind?_cons]
    by_cases hp : p.1 = k
    · rw [if_pos hp]
      dsimp only
      rw [if_neg (fun hc => h (by rw [← hc, hp])), if_neg (fun hc => h (by rw [← hc, hp]))]
      exact ih s h
    · rw [if_neg hp]
      by_cases hp' : p.1 = k'
      · rw [if_pos hp', if_pos hp']
      · rw [if_neg hp', if_neg hp']
        exact ih s h

theorem tfind?_treplace_same : ∀ (t : Table) {k : List ℕ} {st : Stats} (s : Stats),
    tfind? t k = some st → tfind? (treplace t k s) k = some s := by
  intro t
  induction t with
  | nil =>
    intro k st s h
    exact absurd h (by simp [tfind?])
  | cons p rest ih =>
    intro k st s h
    rw [tfind?_cons] at h
    rw [treplace_cons, tfind?_cons]
    by_cases hp : p.1 = k
    · simp [hp]
    · rw [if_neg hp] at h
      simp only [if_neg hp]
      exact ih s h

theorem treplace_keys (t : Table) (k : List ℕ) (s : Stats) :
    (treplace t k s).map (·.1) = t.map (·.1) := by
  induction t with
  | nil => rfl
  | cons p rest ih =>
    rw [treplace_cons, List.map_cons, List.map_cons, ih]
    by_cases hp : p.1 = k
    · rw [if_pos hp]
    · rw [if_neg hp]

theorem tcount_lt (t : Table) (k : List ℕ) (h : ∀ p ∈ t, p.2.count < 2 ^ 32) :
    tcount t k < 2 ^ 32 := by
  unfold tcount
  cases hf : tfind? t k with
  | none => positivity
  | some st =>
    unfold tfind? at hf
    cases hff : t.find? (fun p => p.1 = k) with
    | none => rw [hff] at hf; simp at hf
    | some p =>
      rw [hff] at hf
      have hmem := List.mem_of_find?_eq_some hff
      have := h p hmem
      simp only [Option.some.injEq] at hf
      show st.count < 2 ^ 32
      rwa [hf] at this

theorem tcount_update_same (t : Table) (k : List ℕ) (v : F32) :
    tcount (tableUpdate t k v) k = (tcount t k + 1) % 2 ^ 32 := by
  unfold tableUpdate
  cases hf : tfind? t k with
  | none =>
    unfold tcount
    rw [tfind?_append_of_none t _ hf, tfind?_cons, if_pos rfl, hf]
    show (Stats.singleton v).count = (0 + 1) % 2 ^ 32
    norm_num [Stats.singleton]
  | some st =>
    unfold tcount
    rw [tfind?_treplace_same t _ hf, hf]
    rfl

theorem tcount_update_other (t : Table) {k k' : List ℕ} (v : F32) (h : k' ≠ k) :
    tcount (tableUpdate t k v) k' = tcount t k' := by
  unfold tableUpdate
  cases hf : tfind? t k with
  | none =>
    unfold tcount
    cases hf' : tfind? t k' with
    | none =>
      rw [tfind?_append_of_none t _ hf', tfind?_cons, if_neg (fun hc => h hc.symm)]
      rfl
    | some st => rw [tfind?_append_of_some t _ hf']
  | some st =>
    unfold tcount
    rw [tfind?_treplace_other t _ h]

theorem counts_update {t : Table} (k : List ℕ) (v : F32)
    (h : ∀ p ∈ t, p.2.count < 2 ^ 32) :
    ∀ p ∈ tableUpdate t k v, p.2.count < 2 ^ 32 := by
  unfold tableUpdate
  cases hf : tfind? t k with
  | none =>
    intro p hp
    rcases List.mem_append.mp hp with hp | hp
    · exact h p hp
    · have : p = (k, Stats.singleton v) := by simpa using hp
      rw [this]
      show 1 < 2 ^ 32
      norm_num
  | some st =>
    intro p hp
    obtain ⟨q, hq, hfq⟩ := List.mem_map.mp hp
    by_cases hqk : q.1 = k
    · rw [if_pos hqk] at hfq
      rw [← hfq]
      show (st.count + 1) % 2 ^ 32 < 2 ^ 32
      exact Nat.mod_lt _ (by norm_num)
    · rw [if_neg hqk] at hfq
      rw [← hfq]
      exact h q hq

theorem keys_update_nodup {t : Table} (k : List ℕ) (v : F32)
    (h : (t.map (·.1)).Nodup) : ((tableUpdate t k v).map (·.1)).Nodup := by
  unfold tableUpdate
  cases hf : tfind? t k with
  | none =>
    rw [List.map_append]
    simp only [List.map_cons, List.map_nil]
    rw [List.nodup_append]
    refine ⟨h, List.nodup_singleton k, ?_⟩
    intro a ha hb
    have : a = k := by simpa using hb
    rw [this] at ha
    exact not_mem_of_tfind?_none t hf ha
  | some st =>
    rw [treplace_keys]
    exact h

theorem parseLine_ok_keyOf {l k : List ℕ} {x : F32} (h : parseLine l = .ok (k, x)) :
    keyOf l = some k := by
  unfold parseLine at h
  unfold keyOf
  cases hs : split_once l 59 with
  | none =>
    rw [hs] at h
    simp at h
  | some kv =>
    obtain ⟨k1, v1⟩ := kv
    rw [hs] at h
    have h2 : (match parse_f32 v1 with
        | PRes.panicked => Outcome.panicked
        | PRes.fails => Outcome.err RunError.badFloat
        | PRes.ok x => Outcome.ok (k1, x)) = Outcome.ok (k, x) := h
    cases hp : parse_f32 v1 with
    | panicked =>
      rw [hp] at h2
      simp at h2
    | fails =>
      rw [hp] at h2
      simp at h2
    | ok w =>
      rw [hp] at h2
      simp only [Outcome.ok.injEq, Prod.mk.injEq] at h2
      simp only [Option.map_some', Option.some.injEq]
      exact h2.1

theorem aggLines_bad :
    ∀ (ls : List (List ℕ)) (t : Table), (∃ l ∈ ls, (parseLine l).isOk = false) →
      ∀ t', aggLines t ls ≠ .ok t' := by
  intro ls
  induction ls with
  | nil =>
    intro t h
    obtain ⟨l, hl, -⟩ := h
    simp at hl
  | cons l0 rest ih =>
    intro t h t'
    rw [aggLines]
    cases hp : parseLine l0 with
    | ok kv =>
      dsimp only
      obtain ⟨l, hl, hbad⟩ := h
      rcases List.mem_cons.mp hl with rfl | hl
      · rw [hp] at hbad
        simp [Outcome.isOk] at hbad
      · exact ih (tableUpdate t kv.1 kv.2) ⟨l, hl, hbad⟩ t'
    | err e => simp
    | panicked => simp

theorem aggLines_ok :
    ∀ (ls : List (List ℕ)) (t : Table), (∀ l ∈ ls, (parseLine l).isOk = true) →
      (∀ p ∈ t, p.2.count < 2 ^ 32) →
      ∃ t', aggLines t ls = .ok t' ∧
        (∀ k, tcount t' k =
          (tcount t k + ls.countP (fun l => keyOf l = some k)) % 2 ^ 32) ∧
        (∀ p ∈ t', p.2.count < 2 ^ 32) ∧
        ((t.map (·.1)).Nodup → (t'.map (·.1)).Nodup) := by
  intro ls
  induction ls with
  | nil =>
    intro t _ hb
    refine ⟨t, rfl, fun k => ?_, hb, id⟩
    rw [List.countP_nil, Nat.add_zero, Nat.mod_eq_of_lt (tcount_lt t k hb)]
  | cons l0 rest ih =>
    intro t hok hb
    have hl0 : (parseLine l0).isOk = true := hok l0 (List.mem_cons_self l0 rest)
    cases hp : parseLine l0 with
    | err e => rw [hp] at hl0; simp [Outcome.isOk] at hl0
    | panicked => rw [hp] at hl0; simp [Outcome.isOk] at hl0
    | ok kv =>
      have hkey : keyOf l0 = some kv.1 := parseLine_ok_keyOf (by rw [hp])
      obtain ⟨t', ht', hcnt, hb', hnd⟩ :=
        ih (tableUpdate t kv.1 kv.2) (fun l hl => hok l (List.mem_cons_of_mem l0 hl))
          (counts_update kv.1 kv.2 hb)
      refine ⟨t', ?_, fun k => ?_, hb', fun hnod => hnd (keys_update_nodup kv.1 kv.2 hnod)⟩
      · rw [aggLines, hp]
        exact ht'
      · rw [List.countP_cons, hcnt k]
        by_cases hkk : kv.1 = k
        · subst hkk
          rw [tcount_update_same]
          rw [if_pos (by simp [hkey])]
          omega
        · rw [tcount_update_other t kv.2 (fun hc => hkk hc.symm)]
          rw [if_neg (by simp only [hkey, decide_eq_true_eq, Option.some.injEq]; exact hkk)]
          omega

theorem tcount_cons (p : List ℕ × Stats) (rest : Table) (k : List ℕ) :
    tcount (p :: rest) k = if p.1 = k then p.2.count else tcount rest k := by
  unfold tcount
  rw [tfind?_cons]
  by_cases hp : p.1 = k
  · rw [if_pos hp, if_pos hp]
  · rw [if_neg hp, if_neg hp]

theorem mergeInto_cons (g : Table) (p : List ℕ × Stats) (rest : Table) :
    mergeInto g (p :: rest) =
      mergeInto (match tfind? g p.1 with
        | none => g ++ [(p.1, mergeStats statsDefault p.2)]
        | some cur => treplace g p.1 (mergeStats cur p.2)) rest := rfl

theorem mergeInto_ok :
    ∀ (t g : Table), (t.map (·.1)).Nodup → (∀ p ∈ t, p.2.count < 2 ^ 32) →
      (∀ p ∈ g, p.2.count < 2 ^ 32) →
      (∀ k, tcount (mergeInto g t) k = (tcount g k + tcount t k) % 2 ^ 32) ∧
      (∀ p ∈ mergeInto g t, p.2.count < 2 ^ 32) := by
  intro t
  induction t with
  | nil =>
    intro g _ _ hg
    refine ⟨fun k => ?_, hg⟩
    show tcount g k = (tcount g k + tcount ([] : Table) k) % 2 ^ 32
    rw [show tcount ([] : Table) k = 0 from rfl, Nat.add_zero,
      Nat.mod_eq_of_lt (tcount_lt g k hg)]
  | cons p rest ih =>
    intro g hnd hbt hbg
    rw [List.map_cons, List.nodup_cons] at hnd
    have hstep : ∀ q ∈ (match tfind? g p.1 with
        | none => g ++ [(p.1, mergeStats statsDefault p.2)]
        | some cur => treplace g p.1 (mergeStats cur p.2)), q.2.count < 2 ^ 32 := by
      cases hf : tfind? g p.1 with
      | none =>
        intro q hq
        rcases List.mem_append.mp hq with hq | hq
        · exact hbg q hq
        · have : q = (p.1, mergeStats statsDefault p.2) := by simpa using hq
          rw [this]
          show u32add statsDefault.count p.2.count < 2 ^ 32
          exact Nat.mod_lt _ (by norm_num)
      | some cur =>
        intro q hq
        obtain ⟨r, hr, hfr⟩ := List.mem_map.mp hq
        by_cases hrk : r.1 = p.1
        · rw [if_pos hrk] at hfr
          rw [← hfr]
          show u32add cur.count p.2.count < 2 ^ 32
          exact Nat.mod_lt _ (by norm_num)
        · rw [if_neg hrk] at hfr
          rw [← hfr]
          exact hbg r hr
    have hsame : tcount (match tfind? g p.1 with
        | none => g ++ [(p.1, mergeStats statsDefault p.2)]
        | some cur => treplace g p.1 (mergeStats cur p.2)) p.1
        = (tcount g p.1 + p.2.count) % 2 ^ 32 := by
      cases hf : tfind? g p.1 with
      | none =>
        unfold tcount
        rw [tfind?_append_of_none g _ hf, tfind?_cons, if_pos rfl, hf]
        show u32add statsDefault.count p.2.count = (0 + p.2.count) % 2 ^ 32
        rfl
      | some cur =>
        unfold tcount
        rw [tfind?_treplace_same g _ hf, hf]
        rfl
    have hother : ∀ k, k ≠ p.1 → tcount (match tfind? g p.1 with
        | none => g ++ [(p.1, mergeStats statsDefault p.2)]
        | some cur => treplace g p.1 (mergeStats cur p.2)) k = tcount g k := by
      intro k hk
      cases hf : tfind? g p.1 with
      | none =>
        unfold tcount
        cases hf' : tfind? g k with
        | none =>
          rw [tfind?_append_of_none g _ hf', tfind?_cons, if_neg (fun hc => hk hc.symm)]
          rfl
        | some st => rw [tfind?_append_of_some g _ hf']
      | some cur =>
        unfold tcount
        rw [tfind?_treplace_other g _ hk]
    obtain ⟨ihc, ihb⟩ := ih _ hnd.2 (fun q hq => hbt q (List.mem_cons_of_mem p hq)) hstep
    rw [mergeInto_cons]
    refine ⟨fun k => ?_, ihb⟩
    rw [ihc k, tcount_cons]
    by_cases hkk : p.1 = k
    · rw [if_pos hkk]
      rw [← hkk] at *
      rw [hsame]
      have hrest : tcount rest p.1 = 0 := by
        unfold tcount
        rw [tfind?_none_of_not_mem rest hnd.1]
      rw [hrest]
      omega
    · rw [if_neg hkk, hother k (fun hc => hkk hc.symm)]

theorem collect_ok (buf : List ℕ) :
    ∀ (cs : List (ℕ × ℕ)) (g : Table),
      (∀ c ∈ cs, ∀ l ∈ linesIn buf c.2 c.1, (parseLine l).isOk = true) →
      (∀ p ∈ g, p.2.count < 2 ^ 32) →
      ∃ G, collectTables buf cs g = .ok G ∧
        (∀ k, tcount G k = (tcount g k +
          (cs.flatMap (fun c => linesIn buf c.2 c.1)).countP
            (fun l => keyOf l = some k)) % 2 ^ 32) ∧
        (∀ p ∈ G, p.2.count < 2 ^ 32) := by
  intro cs
  induction cs with
  | nil =>
    intro g _ hg
    refine ⟨g, rfl, fun k => ?_, hg⟩
    rw [List.flatMap_nil, List.countP_nil, Nat.add_zero,
      Nat.mod_eq_of_lt (tcount_lt g k hg)]
  | cons c rest ih =>
    intro g hok hg
    obtain ⟨tc, htc, hcnt, hbc, hnd⟩ :=
      aggLines_ok (linesIn buf c.2 c.1) []
        (fun l hl => hok c (List.mem_cons_self c rest) l hl) (by simp)
    have hndtc : (tc.map (·.1)).Nodup := hnd (by simp)
    obtain ⟨hmc, hmb⟩ := mergeInto_ok tc g hndtc hbc hg
    obtain ⟨G, hG, hGc, hGb⟩ := ih (mergeInto g tc)
      (fun c' hc' l hl => hok c' (List.mem_cons_of_mem c hc') l hl) hmb
    refine ⟨G, ?_, fun k => ?_, hGb⟩
    · have hcs : chunk_stats buf c = .ok tc := by
        show chunkLoop buf c.2 [] c.1 = .ok tc
        rw [chunkLoop_eq_agg buf c.2 c.1 []]
        exact htc
      rw [collectTables, hcs]
      exact hG
    · have hc2 := hcnt k
      rw [show tcount ([] : Table) k = 0 from rfl, Nat.zero_add] at hc2
      rw [hGc k, hmc k, hc2, List.flatMap_cons, List.countP_append]
      omega

theorem boundaries_mono (buf : List ℕ) {n : ℕ} (hn : 1 ≤ n) :
    ∀ i, i + 1 < (0 :: ((List.range' 1 (n - 1)).map
        (fun j => buf.length * j / n + readLen buf (buf.length * j / n)) ++ [buf.length])).length →
      (0 :: ((List.range' 1 (n - 1)).map
        (fun j => buf.length * j / n + readLen buf (buf.length * j / n)) ++ [buf.length])).getD i 0 ≤
      (0 :: ((List.range' 1 (n - 1)).map
        (fun j => buf.length * j / n + readLen buf (buf.length * j / n)) ++ [buf.length])).getD (i + 1) 0 := by
  intro i hi
  have hlen : (0 :: ((List.range' 1 (n - 1)).map
      (fun j => buf.length * j / n + readLen buf (buf.length * j / n)) ++ [buf.length])).length
      = n + 1 := by
    simp only [List.length_cons, List.length_append, List.length_map, List.length_range',
      List.length_nil]
    omega
  rw [hlen] at hi
  rcases Nat.eq_zero_or_pos i with rfl | hpos
  · rw [List.getD_cons_zero]
    exact Nat.zero_le _
  · rw [boundaries_getD buf n (by omega) (by omega),
      boundaries_getD buf n (by omega) (by omega)]
    rw [if_pos (by omega)]
    by_cases hi1 : i + 1 < n
    · rw [if_pos hi1]
      apply bnd_mono buf
      · exact Nat.div_le_div_right (Nat.mul_le_mul_left _ (by omega))
      · exact off_le_len hn (by omega)
    · rw [if_neg hi1]
      exact bnd_le_len (off_le_len hn (by omega))

/-- The per-chunk line lists of `chunks` concatenate to the full line
list of the buffer: every record is scanned by exactly one worker. -/
theorem chunks_flat_lines (buf : List ℕ) {n : ℕ} (hn : 1 ≤ n) :
    (chunks buf n).flatMap (fun c => linesIn buf c.2 c.1) = allLines buf := by
  have hch : chunks buf n = zipPairs (0 :: ((List.range' 1 (n - 1)).map
      (fun j => buf.length * j / n + readLen buf (buf.length * j / n)) ++ [buf.length])) := rfl
  rw [hch, allLines_eq_linesIn]
  apply flat_lines_aux
  · exact chain_of_getD _ 0 (boundaries_mono buf hn)
  · intro b hb
    rcases List.mem_append.mp hb with hb | hb
    · obtain ⟨j, -, rfl⟩ := List.mem_map.mp hb
      exact bnd_aligned buf _
    · have hbl : b = buf.length := by simpa using hb
      subst hbl
      right
      left
      exact le_refl _
  · show ((0 :: (List.range' 1 (n - 1)).map
        (fun j => buf.length * j / n + readLen buf (buf.length * j / n))) ++
        [buf.length]).getLast? = some buf.length
    exact List.getLast?_concat _

/-- Per-key count of the global table: the number of lines bearing the
key, reduced modulo `2^32` (the `u32` count width). -/
theorem final_count (buf : List ℕ) (n : ℕ) (k : List ℕ) (hn : 1 ≤ n) (hw : wellFormed buf) :
    ∃ t, finalTable buf n = .ok t ∧ tcount t k = keyCount buf k % 2 ^ 32 := by
  have hpart := chunks_flat_lines buf hn
  obtain ⟨G, hG, hGc, -⟩ := collect_ok buf (chunks buf n) []
    (fun c hc l hl => hw l (by rw [← hpart]; exact List.mem_flatMap.mpr ⟨c, hc, hl⟩))
    (by simp)
  refine ⟨G, hG, ?_⟩
  have hc := hGc k
  rw [show tcount ([] : Table) k = 0 from rfl, Nat.zero_add, hpart] at hc
  exact hc

theorem collect_bad (buf : List ℕ) :
    ∀ (cs : List (ℕ × ℕ)) (g : Table),
      (∃ c ∈ cs, ∃ l ∈ linesIn buf c.2 c.1, (parseLine l).isOk = false) →
      ∀ G, collectTables buf cs g ≠ .ok G := by
  intro cs
  induction cs with
  | nil =>
    intro g h G
    obtain ⟨c, hc, -⟩ := h
    simp at hc
  | cons c0 rest ih =>
    intro g h G
    rw [collectTables]
    cases hcs : chunk_stats buf c0 with
    | ok t0 =>
      dsimp only
      obtain ⟨c, hc, l, hl, hbad⟩ := h
      rcases List.mem_cons.mp hc with rfl | hc
      · exfalso
        have heq : chunk_stats buf c = aggLines [] (linesIn buf c.2 c.1) :=
          chunkLoop_eq_agg buf c.2 c.1 []
        rw [heq] at hcs
        exact aggLines_bad _ [] ⟨l, hl, hbad⟩ t0 hcs
      · exact ih (mergeInto g t0) ⟨c, hc, l, hl, hbad⟩ G
    | err e => simp
    | panicked => simp

/-- C9: any malformed record (missing `;` or unparsable value) anywhere
in the input makes the whole run fail: no output line is produced, for
any worker count. -/
theorem c9_failfast (buf : List ℕ) (n : ℕ) (hn : 1 ≤ n)
    (hbad : ∃ l ∈ allLines buf, (parseLine l).isOk = false) :
    ∀ out, mainRun buf n ≠ .ok out := by
  intro out
  unfold mainRun
  cases hf : finalTable buf n with
  | ok t =>
    exfalso
    obtain ⟨l, hl, hbadl⟩ := hbad
    rw [← chunks_flat_lines buf hn] at hl
    obtain ⟨c, hc, hlc⟩ := List.mem_flatMap.mp hl
    exact collect_bad buf (chunks buf n) [] ⟨c, hc, l, hlc, hbadl⟩ t hf
  | err e => simp
  | panicked => simp

/-- Witness for `c9_failfast` on the malformed buffer `"NoSemicolon"`. -/
theorem c9_failfast_witness :
    (1 ≤ 1 ∧ ∃ l ∈ allLines bufNS, (parseLine l).isOk = false) ∧
    ∀ out, mainRun bufNS 1 ≠ .ok out := by
  exact ⟨⟨by decide, by decide⟩, c9_failfast bufNS 1 (by decide) (by decide)⟩

/-- C3 (amended): for every well-formed input the count for a key in
the final table is the exact number of lines bearing that key reduced
modulo `2^32` — exact whenever that number fits in the `u32` counter,
independent of the worker count. -/
theorem c3_amended (buf : List ℕ) (n : ℕ) (k : List ℕ) (hn : 1 ≤ n) (hw : wellFormed buf) :
    ∃ t, finalTable buf n = .ok t ∧ tcount t k = keyCount buf k % 2 ^ 32 ∧
      (keyCount buf k < 2 ^ 32 → tcount t k = keyCount buf k) := by
  obtain ⟨t, ht, hc⟩ := final_count buf n k hn hw
  exact ⟨t, ht, hc, fun hlt => by rw [hc, Nat.mod_eq_of_lt hlt]⟩

/-- Witness for `c3_amended` on `"a;1.0\nb;2.0\na;3.0\n"` with two
workers and key `"a"`. -/
theorem c3_amended_witness :
    (1 ≤ 2 ∧ wellFormed [97, 59, 49, 46, 48, 10, 98, 59, 50, 46, 48, 10, 97, 59, 51, 46, 48, 10]) ∧
    ∃ t, finalTable [97, 59, 49, 46, 48, 10, 98, 59, 50, 46, 48, 10, 97, 59, 51, 46, 48, 10] 2 = .ok t ∧
      tcount t [97] =
        keyCount [97, 59, 49, 46, 48, 10, 98, 59, 50, 46, 48, 10, 97, 59, 51, 46, 48, 10] [97] % 2 ^ 32 ∧
      (keyCount [97, 59, 49, 46, 48, 10, 98, 59, 50, 46, 48, 10, 97, 59, 51, 46, 48, 10] [97] < 2 ^ 32 →
        tcount t [97] =
          keyCount [97, 59, 49, 46, 48, 10, 98, 59, 50, 46, 48, 10, 97, 59, 51, 46, 48, 10] [97]) := by
  exact ⟨⟨by decide, by decide⟩,
    c3_amended [97, 59, 49, 46, 48, 10, 98, 59, 50, 46, 48, 10, 97, 59, 51, 46, 48, 10] 2 [97]
      (by decide) (by decide)⟩

theorem drop_append_len (pre buf : List ℕ) (c : ℕ) :
    (pre ++ buf).drop (pre.length + c) = buf.drop c := by
  rw [List.drop_append]

theorem readLen_shift (pre buf : List ℕ) (c : ℕ) :
    readLen (pre ++ buf) (pre.length + c) = readLen buf c := by
  unfold readLen
  rw [drop_append_len]
  cases hf : (buf.drop c).findIdx? (· = 10) with
  | some j => rfl
  | none =>
    show (pre ++ buf).length - (pre.length + c) = buf.length - c
    rw [List.length_append]
    omega

theorem readSeg_shift (pre buf : List ℕ) (c : ℕ) :
    readSeg (pre ++ buf) (pre.length + c) = readSeg buf c := by
  unfold readSeg
  rw [drop_append_len, readLen_shift]

theorem recordsFromF_shift (pre buf : List ℕ) :
    ∀ (fuel c : ℕ),
      recordsFromF fuel (pre ++ buf) (pre.length + c) =
        (recordsFromF fuel buf c).map (fun r => (pre.length + r.1, r.2)) := by
  intro fuel
  induction fuel with
  | zero => intro c; rfl
  | succ f ih =>
    intro c
    rw [recordsFromF, recordsFromF]
    by_cases hc : c < buf.length
    · rw [if_pos (by rw [List.length_append]; omega), if_pos hc, readLen_shift]
      cases hr : readLen buf c with
      | zero => rfl
      | succ n =>
        show (pre.length + c, stripNl (readSeg (pre ++ buf) (pre.length + c))) ::
            recordsFromF f (pre ++ buf) (pre.length + c + (n + 1)) =
          List.map (fun r => (pre.length + r.1, r.2))
            ((c, stripNl (readSeg buf c)) :: recordsFromF f buf (c + (n + 1)))
        rw [readSeg_shift,
          show pre.length + c + (n + 1) = pre.length + (c + (n + 1)) from by omega, ih,
          List.map_cons]
    · rw [if_neg (by rw [List.length_append]; omega), if_neg hc]
      rfl

theorem readLen_unit_cons (buf : List ℕ) : readLen (unitLine ++ buf) 0 = 6 := by
  apply readLen_eq_some (j := 5)
  rw [List.drop_zero]
  show (107 :: 59 :: 49 :: 46 :: 48 :: 10 :: buf).findIdx? (· = 10) = some 5
  simp [List.findIdx?_cons]

theorem seg_unit (buf : List ℕ) :
    stripNl (readSeg (unitLine ++ buf) 0) = [107, 59, 49, 46, 48] := rfl

theorem allLines_cons_unit (buf : List ℕ) :
    allLines (unitLine ++ buf) = [107, 59, 49, 46, 48] :: allLines buf := by
  have hrec : recordsFrom (unitLine ++ buf) 0 =
      (0, stripNl (readSeg (unitLine ++ buf) 0)) :: recordsFrom (unitLine ++ buf) (0 + 6) := by
    rw [recordsFrom_eq, if_pos (by rw [List.length_append]; simp [unitLine]),
      readLen_unit_cons]
  have ht : recordsFrom (unitLine ++ buf) (0 + 6) =
      (recordsFrom buf 0).map (fun r => (6 + r.1, r.2)) := by
    have h1 : recordsFrom (unitLine ++ buf) (0 + 6) =
        recordsFromF (buf.length + 1) (unitLine ++ buf) (unitLine.length + 0) := by
      unfold recordsFrom
      have h2 : (unitLine ++ buf).length + 1 - (0 + 6) = buf.length + 1 := by
        rw [List.length_append]
        simp only [unitLine, List.length_cons, List.length_nil]
        omega
      rw [h2]
      rfl
    rw [h1, recordsFromF_shift]
    rfl
  unfold allLines
  rw [hrec, ht, List.map_cons, List.map_map, seg_unit]
  rfl

theorem allLines_replicate (m : ℕ) :
    allLines ((List.replicate m unitLine).flatten) = List.replicate m [107, 59, 49, 46, 48] := by
  induction m with
  | zero => rfl
  | succ k ih =>
    rw [List.replicate_succ, List.flatten_cons, allLines_cons_unit, ih, List.replicate_succ]

theorem countP_replicate_eq {α : Type} (p : α → Bool) (a : α) (h : p a = true) (m : ℕ) :
    (List.replicate m a).countP p = m := by
  induction m with
  | zero => rfl
  | succ k ih =>
    rw [List.replicate_succ, List.countP_cons, h, ih]
    simp

theorem wellFormed_bufBig : wellFormed bufBig := by
  intro l hl
  unfold bufBig at hl
  rw [allLines_replicate] at hl
  rw [List.eq_of_mem_replicate hl]
  decide

theorem keyCount_bufBig : keyCount bufBig [107] = 2 ^ 32 + 1 := by
  unfold keyCount bufBig
  rw [allLines_replicate, countP_replicate_eq]
  decide

/-- C3 refuted as stated: the per-key count is a `u32` and wraps.  A
well-formed buffer of `2^32 + 1` records, all with key `"k"`, yields a
final table whose count for that key is `1`, not the exact number of
lines bearing the key. -/
theorem c3_counterexample :
    wellFormed bufBig ∧ keyCount bufBig [107] = 2 ^ 32 + 1 ∧
    ∃ t, finalTable bufBig 1 = .ok t ∧ tcount t [107] = 1 ∧
      tcount t [107] ≠ keyCount bufBig [107] := by
  refine ⟨wellFormed_bufBig, keyCount_bufBig, ?_⟩
  obtain ⟨t, ht, hc⟩ := final_count bufBig 1 [107] (by omega) wellFormed_bufBig
  rw [keyCount_bufBig] at hc
  have h1 : tcount t [107] = 1 := by
    rw [hc]
    decide
  refine ⟨t, ht, h1, ?_⟩
  rw [h1, keyCount_bufBig]
  decide

/-- C6: for a range whose endpoints are record boundaries,
`chunk_stats` aggregates exactly the complete records whose first byte
lies in `[a, b)` — a record beginning before `b` is processed in full,
one beginning at or after `b` is not — and any empty range yields the
empty table without error. -/
theorem c6_chunk_exact (buf : List ℕ) (a b : ℕ) (ha : alignedB buf a) (_hb : alignedB buf b)
    (_hab : a ≤ b) :
    chunk_stats buf (a, b) = aggLines [] (recordsIn buf a b) ∧
    ∀ c : ℕ, chunk_stats buf (c, c) = .ok [] := by
  constructor
  · show chunkLoop buf b [] a = _
    rw [chunkLoop_eq_agg]
    congr 1
    unfold linesIn recordsIn
    have hsplit := recordsFrom_split buf (recordsFrom buf 0) 0 rfl a (Nat.zero_le a) ha
    rw [← hsplit, List.filter_append]
    have hT : ((recordsFrom buf 0).takeWhile (fun r => decide (r.1 < a))).filter
        (fun r => decide (a ≤ r.1) && decide (r.1 < b)) = [] := by
      rw [List.filter_eq_nil_iff]
      intro r hr
      have hlt := List.mem_takeWhile_imp hr
      simp only [Bool.and_eq_true, decide_eq_true_eq] at hlt ⊢
      omega
    rw [hT, List.nil_append]
    have hRa : (recordsFrom buf a).filter (fun r => decide (a ≤ r.1) && decide (r.1 < b)) =
        (recordsFrom buf a).filter (fun r => decide (r.1 < b)) := by
      apply List.filter_congr
      intro r hr
      have hge := recordsFrom_ge r hr
      simp [hge]
    rw [hRa, filter_eq_takeWhile_records buf b (recordsFrom buf a) a rfl]
  · intro c
    show chunkLoop buf c [] c = _
    rw [chunkLoop_eq_agg, linesIn_of_le (le_refl c)]
    rfl

/-- Witness for `c6_chunk_exact` on the buffer `"a\nb\n"` with the
aligned range `[2, 4)`. -/
theorem c6_chunk_exact_witness :
    (alignedB [97, 10, 98, 10] 2 ∧ alignedB [97, 10, 98, 10] 4 ∧ 2 ≤ 4) ∧
    (chunk_stats [97, 10, 98, 10] (2, 4) = aggLines [] (recordsIn [97, 10, 98, 10] 2 4) ∧
     ∀ c : ℕ, chunk_stats [97, 10, 98, 10] (c, c) = .ok []) :=
  ⟨⟨by decide, by decide, by decide⟩,
    c6_chunk_exact [97, 10, 98, 10] 2 4 (by decide) (by decide) (by decide)⟩

theorem parseShape_pos_ok {t : List ℕ} (h : grammarShape t = true) :
    ∃ x, parseShape (fofInt 1) t = .ok x := by
  rcases grammarShape_cases h with ⟨a, b, rfl, ha, hb⟩ | ⟨a, b, c, rfl, ha, hb, hc⟩
  · have hda : to_digit a = some (a - 48) := by simp [to_digit, ha]
    have hdb : to_digit b = some (b - 48) := by simp [to_digit, hb]
    simp only [parseShape]
    rw [if_neg (by omega), hda, hdb]
    exact ⟨_, rfl⟩
  · have hda : to_digit a = some (a - 48) := by simp [to_digit, ha]
    have hdb : to_digit b = some (b - 48) := by simp [to_digit, hb]
    have hdc : to_digit c = some (c - 48) := by simp [to_digit, hc]
    simp only [parseShape]
    rw [if_neg (by omega), hda, hdb, hdc]
    exact ⟨_, rfl⟩

theorem parse_grammar_ok {s : List ℕ} (h : matchesGrammar s = true) :
    ∃ x, parse_f32 s = .ok x := by
  unfold matchesGrammar at h
  rw [Bool.or_eq_true] at h
  rcases h with h1 | h2
  · obtain ⟨x, hx⟩ := parseShape_pos_ok h1
    rw [parse_bare h1, hx]
    exact ⟨x, rfl⟩
  · rw [Bool.and_eq_true] at h2
    obtain ⟨hh, hg⟩ := h2
    rcases s with _ | ⟨c0, t⟩
    · simp at hh
    · have hc0 : c0 = 45 := by simpa using hh
      subst hc0
      rw [parse_neg_cons, parseShape_neg]
      obtain ⟨x, hx⟩ := parseShape_pos_ok (t := t) (by simpa using hg)
      rw [hx]
      exact ⟨fneg x, rfl⟩

theorem lexLe_nil (k : List ℕ) : lexLe [] k = true := by
  cases k <;> simp [lexLe, lexLt]

/-- C10: a line starting with the `;` delimiter and a grammatical value
parses to a record with the empty key (nothing in the pipeline rejects
empty keys), the empty key sorts before every key, and the one-record
input `";1.0\n"` is reported as `{=1.0/1.0/1.0}`. -/
theorem c10_empty_key (v : List ℕ) (h : matchesGrammar v = true) :
    (∃ x : F32, parseLine (59 :: v) = .ok ([], x)) ∧
    (∀ k : List ℕ, lexLe [] k = true) ∧
    mainRun bufSemi 1 = .ok [123, 61, 49, 46, 48, 47, 49, 46, 48, 47, 49, 46, 48, 125, 10] := by
  refine ⟨?_, lexLe_nil, by decide⟩
  obtain ⟨x, hx⟩ := parse_grammar_ok h
  have h2 : (match parse_f32 v with
      | .panicked => (.panicked : Outcome (List ℕ × F32))
      | .fails => .err .badFloat
      | .ok x => .ok ([], x)) = .ok ([], x) := by
    rw [hx]
  exact ⟨x, h2⟩

/-- Witness for `c10_empty_key` at the value `"1.0"`. -/
theorem c10_empty_key_witness :
    matchesGrammar [49, 46, 48] = true ∧
    ((∃ x : F32, parseLine (59 :: [49, 46, 48]) = .ok ([], x)) ∧
     (∀ k : List ℕ, lexLe [] k = true) ∧
     mainRun bufSemi 1 = .ok [123, 61, 49, 46, 48, 47, 49, 46, 48, 47, 49, 46, 48, 125, 10]) :=
  ⟨by decide, c10_empty_key [49, 46, 48] (by decide)⟩

theorem lexLt_trans : ∀ (a b c : List ℕ), lexLt a b = true → lexLt b c = true → lexLt a c = true := by
  intro a
  induction a with
  | nil =>
    intro b c hab hbc
    cases b with
    | nil => simp [lexLt] at hab
    | cons b0 bs =>
      cases c with
      | nil => simp [lexLt] at hbc
      | cons c0 cs => rfl
  | cons a0 as ih =>
    intro b c hab hbc
    cases b with
    | nil => simp [lexLt] at hab
    | cons b0 bs =>
      cases c with
      | nil => simp [lexLt] at hbc
      | cons c0 cs =>
        simp only [lexLt] at hab hbc ⊢
        by_cases h1 : a0 < b0 <;> by_cases h2 : b0 < c0
        · rw [if_pos (show a0 < c0 by omega)]
        · rw [if_neg h2] at hbc
          by_cases h3 : b0 = c0
          · rw [if_pos (show a0 < c0 by omega)]
          · rw [if_neg h3] at hbc
            exact absurd hbc (by simp)
        · rw [if_neg h1] at hab
          by_cases h3 : a0 = b0
          · rw [if_pos (show a0 < c0 by omega)]
          · rw [if_neg h3] at hab
            exact absurd hab (by simp)
        · rw [if_neg h1] at hab
          rw [if_neg h2] at hbc
          by_cases h3 : a0 = b0
          · rw [if_pos h3] at hab
            by_cases h4 : b0 = c0
            · rw [if_pos h4] at hbc
              rw [if_neg (show ¬a0 < c0 by omega), if_pos (show a0 = c0 by omega)]
              exact ih bs cs hab hbc
            · rw [if_neg h4] at hbc
              exact absurd hbc (by simp)
          · rw [if_neg h3] at hab
            exact absurd hab (by simp)

theorem lexLt_tri : ∀ (a b : List ℕ), lexLt a b = true ∨ a = b ∨ lexLt b a = true := by
  intro a
  induction a with
  | nil =>
    intro b
    cases b with
    | nil => right; left; rfl
    | cons b0 bs => left; rfl
  | cons a0 as ih =>
    intro b
    cases b with
    | nil => right; right; rfl
    | cons b0 bs =>
      rcases Nat.lt_trichotomy a0 b0 with h | h | h
      · left; simp [lexLt, h]
      · subst h
        rcases ih bs with h2 | h2 | h2
        · left; simp [lexLt, h2]
        · right; left; rw [h2]
        · right; right; simp [lexLt, h2]
      · right; right; simp [lexLt, h]

theorem lexLe_trans (a b c : List ℕ) (h1 : lexLe a b = true) (h2 : lexLe b c = true) :
    lexLe a c = true := by
  unfold lexLe at h1 h2 ⊢
  rw [Bool.or_eq_true] at h1 h2 ⊢
  rcases h1 with h1 | h1 <;> rcases h2 with h2 | h2
  · exact Or.inl (lexLt_trans a b c h1 h2)
  · left
    rwa [show b = c from by simpa using h2] at h1
  · left
    rwa [show a = b from by simpa using h1]
  · right
    simp only [decide_eq_true_eq] at h1 h2 ⊢
    exact h1.trans h2

theorem lexLe_total (a b : List ℕ) : lexLe a b = true ∨ lexLe b a = true := by
  unfold lexLe
  rcases lexLt_tri a b with h | h | h
  · left; simp [h]
  · subst h; left; simp
  · right; simp [h]

theorem lexLt_of_le_ne {a b : List ℕ} (h1 : lexLe a b = true) (h2 : a ≠ b) : lexLt a b = true := by
  unfold lexLe at h1
  rw [Bool.or_eq_true] at h1
  rcases h1 with h1 | h1
  · exact h1
  · exact absurd (by simpa using h1) h2

theorem divNE_nearest (a b : ℕ) (hb : 0 < b) :
    2 * divNE a b * b ≤ 2 * a + b ∧ 2 * a ≤ 2 * divNE a b * b + b := by
  have hd : divNE a b =
      if 2 * (a % b) < b then a / b
      else if b < 2 * (a % b) then a / b + 1
      else if a / b % 2 = 0 then a / b else a / b + 1 := rfl
  rw [hd]
  have h1 : b * (a / b) + a % b = a := Nat.div_add_mod a b
  have h2 : a % b < b := Nat.mod_lt a hb
  generalize hq : a / b = q at h1 ⊢
  generalize hr : a % b = r at h1 h2 ⊢
  subst h1
  split_ifs <;> constructor <;> nlinarith

theorem renderEntries_false : ∀ ps : List (List ℕ × Stats), ps ≠ [] →
    renderEntries ps false = [44, 32] ++ joinSep [44, 32] (ps.map entryBytes) := by
  intro ps
  induction ps with
  | nil => intro h; exact absurd rfl h
  | cons p rest ih =>
    intro _
    rw [renderEntries]
    cases rest with
    | nil => simp [renderEntries, joinSep]
    | cons q qs =>
      rw [ih (by simp)]
      simp [joinSep, List.append_assoc]

theorem renderEntries_eq_join (ps : List (List ℕ × Stats)) :
    renderEntries ps true = joinSep [44, 32] (ps.map entryBytes) := by
  cases ps with
  | nil => rfl
  | cons p rest =>
    rw [renderEntries]
    cases rest with
    | nil => simp [renderEntries, joinSep]
    | cons q qs =>
      rw [renderEntries_false (q :: qs) (by simp)]
      simp [joinSep]

theorem natDigitsF_digits : ∀ fuel n, n < fuel → ∀ d ∈ natDigitsF fuel n, 48 ≤ d ∧ d ≤ 57 := by
  intro fuel
  induction fuel with
  | zero =>
    intro n h
    exact absurd h (by omega)
  | succ f ih =>
    intro n h d hd
    rw [natDigitsF] at hd
    by_cases hn : n < 10
    · rw [if_pos hn] at hd
      simp at hd
      omega
    · rw [if_neg hn] at hd
      rcases List.mem_append.mp hd with hd | hd
      · exact ih (n / 10) (by omega) d hd
      · simp at hd
        omega

/-- C8: with every key valid UTF-8 and keys unique (as in a `HashMap`),
the report is `\x7b`, the rendered entries joined by `", "`, `\x7d` and a
newline; the sorted entries are in strictly ascending byte order of
key with no duplicates; each entry is `key=min/avg/max` with
`avg = sum / count`; and a finite value is formatted as an optional
sign, decimal digits, a point and exactly one decimal digit, the
printed number of tenths lying within half a tenth of the exact value
(round to nearest). -/
theorem c8_report (t : Table) (hutf : t.all (fun p => utf8Valid p.1) = true)
    (hnd : (t.map (·.1)).Nodup) :
    print_stats t =
      .ok ([123] ++ joinSep [44, 32] ((sortPairs t).map entryBytes) ++ [125, 10]) ∧
    List.Pairwise (fun p q : List ℕ × Stats => lexLt p.1 q.1 = true) (sortPairs t) ∧
    (∀ p : List ℕ × Stats, entryBytes p =
      p.1 ++ [61] ++ fmtF32 p.2.min ++ [47] ++ fmtF32 (fdiv p.2.sum (u32ToF32 p.2.count)) ++
        [47] ++ fmtF32 p.2.max) ∧
    (∀ m : ℤ, fmtF32 (.finite m) =
        (if m < 0 then [45] else []) ++
          natDigits (divNE (10 * m.natAbs) (2 ^ 149) / 10) ++
          [46, 48 + divNE (10 * m.natAbs) (2 ^ 149) % 10] ∧
      divNE (10 * m.natAbs) (2 ^ 149) % 10 < 10 ∧
      (∀ d ∈ natDigits (divNE (10 * m.natAbs) (2 ^ 149) / 10), 48 ≤ d ∧ d ≤ 57) ∧
      2 * divNE (10 * m.natAbs) (2 ^ 149) * 2 ^ 149 ≤ 2 * (10 * m.natAbs) + 2 ^ 149 ∧
      2 * (10 * m.natAbs) ≤ 2 * divNE (10 * m.natAbs) (2 ^ 149) * 2 ^ 149 + 2 ^ 149) := by
  refine ⟨?_, ?_, ?_, ?_⟩
  · unfold print_stats
    rw [if_pos hutf, renderEntries_eq_join]
  · have hs : List.Pairwise (fun p q : List ℕ × Stats => lexLe p.1 q.1 = true) (sortPairs t) := by
      unfold sortPairs
      haveI : IsTotal (List ℕ × Stats) (fun p q => lexLe p.1 q.1 = true) :=
        ⟨fun x y => lexLe_total x.1 y.1⟩
      haveI : IsTrans (List ℕ × Stats) (fun p q => lexLe p.1 q.1 = true) :=
        ⟨fun x y z => lexLe_trans x.1 y.1 z.1⟩
      exact List.sorted_insertionSort _ t
    have hperm : List.Perm (sortPairs t) t := List.perm_insertionSort _ t
    have hnds : ((sortPairs t).map (·.1)).Nodup := ((hperm.map (·.1)).nodup_iff).mpr hnd
    have hp2 : List.Pairwise (fun p q : List ℕ × Stats => p.1 ≠ q.1) (sortPairs t) :=
      List.pairwise_map.mp hnds
    exact (hs.and hp2).imp fun h => lexLt_of_le_ne h.1 h.2
  · intro p
    simp [entryBytes, displayStats, statsAvg, List.append_assoc]
  · intro m
    refine ⟨rfl, Nat.mod_lt _ (by norm_num), ?_, (divNE_nearest _ _ (by positivity)).1,
      (divNE_nearest _ _ (by positivity)).2⟩
    intro d hd
    exact natDigitsF_digits _ _ (Nat.lt_succ_self _) d hd

/-- Witness for `c8_report` on a concrete two-key table. -/
theorem c8_report_witness :
    (([([98], statsDefault), ([97], statsDefault)] : Table).all (fun p => utf8Valid p.1) = true ∧
     (([([98], statsDefault), ([97], statsDefault)] : Table).map (·.1)).Nodup) ∧
    (print_stats [([98], statsDefault), ([97], statsDefault)] =
        .ok ([123] ++ joinSep [44, 32]
          ((sortPairs [([98], statsDefault), ([97], statsDefault)]).map entryBytes) ++ [125, 10]) ∧
     List.Pairwise (fun p q : List ℕ × Stats => lexLt p.1 q.1 = true)
       (sortPairs [([98], statsDefault), ([97], statsDefault)]) ∧
     (∀ p : List ℕ × Stats, entryBytes p =
        p.1 ++ [61] ++ fmtF32 p.2.min ++ [47] ++ fmtF32 (fdiv p.2.sum (u32ToF32 p.2.count)) ++
          [47] ++ fmtF32 p.2.max) ∧
     (∀ m : ℤ, fmtF32 (.finite m) =
        (if m < 0 then [45] else []) ++
          natDigits (divNE (10 * m.natAbs) (2 ^ 149) / 10) ++
          [46, 48 + divNE (10 * m.natAbs) (2 ^ 149) % 10] ∧
      divNE (10 * m.natAbs) (2 ^ 149) % 10 < 10 ∧
      (∀ d ∈ natDigits (divNE (10 * m.natAbs) (2 ^ 149) / 10), 48 ≤ d ∧ d ≤ 57) ∧
      2 * divNE (10 * m.natAbs) (2 ^ 149) * 2 ^ 149 ≤ 2 * (10 * m.natAbs) + 2 ^ 149 ∧
      2 * (10 * m.natAbs) ≤ 2 * divNE (10 * m.natAbs) (2 ^ 149) * 2 ^ 149 + 2 ^ 149)) :=
  ⟨⟨by decide, by decide⟩, c8_report [([98], statsDefault), ([97], statsDefault)] (by decide) (by decide)⟩

theorem readLen_unit_small (buf : List ℕ) (p : ℕ) (h : p < 6) :
    readLen (unitLine ++ buf) p = 6 - p := by
  interval_cases p
  · exact readLen_unit_cons buf
  · apply readLen_eq_some (j := 4)
    show (59 :: 49 :: 46 :: 48 :: 10 :: buf).findIdx? (· = 10) = some 4
    simp [List.findIdx?_cons]
  · apply readLen_eq_some (j := 3)
    show (49 :: 46 :: 48 :: 10 :: buf).findIdx? (· = 10) = some 3
    simp [List.findIdx?_cons]
  · apply readLen_eq_some (j := 2)
    show (46 :: 48 :: 10 :: buf).findIdx? (· = 10) = some 2
    simp [List.findIdx?_cons]
  · apply readLen_eq_some (j := 1)
    show (48 :: 10 :: buf).findIdx? (· = 10) = some 1
    simp [List.findIdx?_cons]
  · apply readLen_eq_some (j := 0)
    show (10 :: buf).findIdx? (· = 10) = some 0
    simp [List.findIdx?_cons]

theorem flatten_replicate_length (m : ℕ) :
    ((List.replicate m unitLine).flatten).length = 6 * m := by
  induction m with
  | zero => rfl
  | succ k ih =>
    rw [List.replicate_succ, List.flatten_cons, List.length_append, ih]
    simp only [unitLine, List.length_cons, List.length_nil]
    omega

theorem readLen_repl : ∀ (m p : ℕ), p < 6 * m →
    readLen ((List.replicate m unitLine).flatten) p = 6 - p % 6 := by
  intro m
  induction m with
  | zero =>
    intro p h
    exact absurd h (by omega)
  | succ mm ih =>
    intro p h
    rw [List.replicate_succ, List.flatten_cons]
    by_cases hp : p < 6
    · rw [readLen_unit_small _ p hp, Nat.mod_eq_of_lt hp]
    · have hs := readLen_shift unitLine ((List.replicate mm unitLine).flatten) (p - 6)
      have h62 : unitLine.length + (p - 6) = p := by
        simp only [unitLine, List.length_cons, List.length_nil]
        omega
      rw [h62] at hs
      rw [hs, ih (p - 6) (by omega)]
      have hm6 : (p - 6) % 6 = p % 6 := by omega
      rw [hm6]

theorem wellFormed_bufC2 : wellFormed bufC2 := by
  intro l hl
  unfold bufC2 at hl
  rw [allLines_replicate] at hl
  rw [List.eq_of_mem_replicate hl]
  decide

theorem chunksU_eq_chunks (buf : List ℕ) (n : ℕ) (hn : 1 ≤ n)
    (hov : buf.length * (n - 1) < 2 ^ 64) : chunksU buf n = chunks buf n := by
  have h1 : chunksU buf n = zipPairs (0 :: ((List.range' 1 (n - 1)).map (fun i =>
      (buf.length * i % 2 ^ 64 / n + readLen buf (buf.length * i % 2 ^ 64 / n)) % 2 ^ 64)
      ++ [buf.length])) := rfl
  have h2 : chunks buf n = zipPairs (0 :: ((List.range' 1 (n - 1)).map (fun i =>
      buf.length * i / n + readLen buf (buf.length * i / n)) ++ [buf.length])) := rfl
  have h3 : (List.range' 1 (n - 1)).map (fun i =>
      (buf.length * i % 2 ^ 64 / n + readLen buf (buf.length * i % 2 ^ 64 / n)) % 2 ^ 64) =
      (List.range' 1 (n - 1)).map (fun i =>
      buf.length * i / n + readLen buf (buf.length * i / n)) := by
    apply List.map_congr_left
    intro i hi
    rw [List.mem_range'] at hi
    have hprod : buf.length * i < 2 ^ 64 :=
      Nat.lt_of_le_of_lt (Nat.mul_le_mul_left _ (by omega)) hov
    rw [Nat.mod_eq_of_lt hprod]
    apply Nat.mod_eq_of_lt
    have hble : buf.length * i / n + readLen buf (buf.length * i / n) ≤ buf.length :=
      bnd_le_len (off_le_len hn (by omega))
    have hlen : buf.length ≤ buf.length * (n - 1) := by
      calc buf.length = buf.length * 1 := by ring
        _ ≤ buf.length * (n - 1) := Nat.mul_le_mul_left _ (by omega)
    omega
  rw [h1, h3, ← h2]

theorem chunksU_bufC2 :
    chunksU bufC2 3 =
      [(0, 3074457345618258606), (3074457345618258606, 6), (6, 9223372036854775812)] := by
  have hlen : bufC2.length = 9223372036854775812 := by
    unfold bufC2
    rw [flatten_replicate_length]
  have hr1 : readLen bufC2 3074457345618258604 = 2 := by
    unfold bufC2
    rw [readLen_repl _ _ (by norm_num)]
  have hr2 : readLen bufC2 2 = 4 := by
    unfold bufC2
    rw [readLen_repl _ _ (by norm_num)]
  have hu : chunksU bufC2 3 = zipPairs (0 :: ((List.range' 1 2).map (fun i =>
      (bufC2.length * i % 2 ^ 64 / 3 + readLen bufC2 (bufC2.length * i % 2 ^ 64 / 3)) % 2 ^ 64)
      ++ [bufC2.length])) := rfl
  rw [hu, hlen, show List.range' 1 2 = [1, 2] from rfl, List.map_cons, List.map_cons,
    List.map_nil]
  norm_num
  rw [hr1, hr2]
  norm_num [zipPairs, List.zip]

/-- C2 refuted as stated: the source computes the seek offset as the
u64 product `len * i / n`, which wraps in release mode.  On a
well-formed buffer of length `2^63 + 4` with `n = 3` workers the
second interior offset wraps to `8 / 3 = 2`, giving the non-monotone
boundary list `[0, 3074457345618258606, 6, len]`: one range runs
backwards (`end < start`) and the first and last ranges overlap (both
contain byte 6), so the ranges are not a partition of `[0, len)`. -/
theorem c2_counterexample :
    wellFormed bufC2 ∧
    chunksU bufC2 3 =
      [(0, 3074457345618258606), (3074457345618258606, 6), (6, 9223372036854775812)] ∧
    (∃ c ∈ chunksU bufC2 3, c.2 < c.1) ∧
    (∃ c₁ ∈ chunksU bufC2 3, ∃ c₂ ∈ chunksU bufC2 3, c₁ ≠ c₂ ∧
      c₁.1 ≤ 6 ∧ 6 < c₁.2 ∧ c₂.1 ≤ 6 ∧ 6 < c₂.2) := by
  refine ⟨wellFormed_bufC2, chunksU_bufC2, ?_, ?_⟩
  · rw [chunksU_bufC2]
    exact ⟨(3074457345618258606, 6), by decide, by decide⟩
  · rw [chunksU_bufC2]
    exact ⟨(0, 3074457345618258606), by decide, (6, 9223372036854775812), by decide,
      by decide, by decide, by decide, by decide, by decide⟩

/-- C2 (amended): when no `u64` overflow occurs in the boundary
computation (`len * (n-1) < 2^64`, true of every real file on any
feasible worker count), `chunks` returns exactly `n` contiguous
half-open ranges exactly partitioning `[0, len)`, every interior
boundary one past a newline at or after `len*i/n`, or at `len` if no
such newline exists. -/
theorem c2_amended (buf : List ℕ) (n : ℕ) (hn : 1 ≤ n)
    (hov : buf.length * (n - 1) < 2 ^ 64) :
    (chunksU buf n).length = n ∧
    ((chunksU buf n).getD 0 (0, 0)).1 = 0 ∧
    ((chunksU buf n).getD (n - 1) (0, 0)).2 = buf.length ∧
    (∀ i, i + 1 < n → ((chunksU buf n).getD i (0, 0)).2 =
      ((chunksU buf n).getD (i + 1) (0, 0)).1) ∧
    (∀ i, i < n → ((chunksU buf n).getD i (0, 0)).1 ≤ ((chunksU buf n).getD i (0, 0)).2) ∧
    (∀ i, 1 ≤ i → i < n →
      (∃ p, buf.length * i / n ≤ p ∧ nlAt buf p ∧
        ((chunksU buf n).getD i (0, 0)).1 = p + 1) ∨
      (((chunksU buf n).getD i (0, 0)).1 = buf.length ∧
        ∀ p, buf.length * i / n ≤ p → ¬nlAt buf p)) := by
  rw [chunksU_eq_chunks buf n hn hov]
  exact c2_chunks buf n hn

/-- Witness for `c2_amended` on the buffer `"a\nbc\n"` with two
workers. -/
theorem c2_amended_witness :
    (1 ≤ 2 ∧ [97, 10, 98, 99, 10].length * (2 - 1) < 2 ^ 64) ∧
    ((chunksU [97, 10, 98, 99, 10] 2).length = 2 ∧
     ((chunksU [97, 10, 98, 99, 10] 2).getD 0 (0, 0)).1 = 0 ∧
     ((chunksU [97, 10, 98, 99, 10] 2).getD (2 - 1) (0, 0)).2 = [97, 10, 98, 99, 10].length ∧
     (∀ i, i + 1 < 2 → ((chunksU [97, 10, 98, 99, 10] 2).getD i (0, 0)).2 =
        ((chunksU [97, 10, 98, 99, 10] 2).getD (i + 1) (0, 0)).1) ∧
     (∀ i, i < 2 → ((chunksU [97, 10, 98, 99, 10] 2).getD i (0, 0)).1 ≤
        ((chunksU [97, 10, 98, 99, 10] 2).getD i (0, 0)).2) ∧
     (∀ i, 1 ≤ i → i < 2 →
       (∃ p, [97, 10, 98, 99, 10].length * i / 2 ≤ p ∧ nlAt [97, 10, 98, 99, 10] p ∧
          ((chunksU [97, 10, 98, 99, 10] 2).getD i (0, 0)).1 = p + 1) ∨
       (((chunksU [97, 10, 98, 99, 10] 2).getD i (0, 0)).1 = [97, 10, 98, 99, 10].length ∧
          ∀ p, [97, 10, 98, 99, 10].length * i / 2 ≤ p → ¬nlAt [97, 10, 98, 99, 10] p))) := by
  exact ⟨⟨by decide, by decide⟩, c2_amended [97, 10, 98, 99, 10] 2 (by decide) (by decide)⟩

theorem u32add_lt (a b : ℕ) : u32add a b < 2 ^ 32 := Nat.mod_lt _ (by norm_num)

theorem isOk_exists {l : List ℕ} (h : (parseLine l).isOk = true) :
    ∃ kv, parseLine l = .ok kv := by
  cases hp : parseLine l with
  | ok kv => exact ⟨kv, rfl⟩
  | err e => rw [hp] at h; simp [Outcome.isOk] at h
  | panicked => rw [hp] at h; simp [Outcome.isOk] at h

theorem tfind?_single_same (k : List ℕ) (s : Stats) : tfind? [(k, s)] k = some s := by
  rw [tfind?_cons]
  simp

theorem tfind?_append_single_other (g : Table) {k' k : List ℕ} (s : Stats) (h : k' ≠ k) :
    tfind? (g ++ [(k', s)]) k = tfind? g k := by
  cases hf : tfind? g k with
  | some st => exact tfind?_append_of_some g _ hf
  | none =>
    rw [tfind?_append_of_none g _ hf, tfind?_cons, if_neg h]
    rfl

theorem tfind?_update_same (t : Table) (k : List ℕ) (v : F32) :
    tfind? (tableUpdate t k v) k =
      match tfind? t k with
      | none => some (Stats.singleton v)
      | some s => some (s.update v) := by
  unfold tableUpdate
  cases hf : tfind? t k with
  | none =>
    dsimp only
    rw [tfind?_append_of_none t _ hf]
    exact tfind?_single_same k (Stats.singleton v)
  | some s =>
    dsimp only
    exact tfind?_treplace_same t _ hf

theorem tfind?_update_other (t : Table) {k' k : List ℕ} (v : F32) (h : k ≠ k') :
    tfind? (tableUpdate t k' v) k = tfind? t k := by
  unfold tableUpdate
  cases hf : tfind? t k' with
  | none =>
    dsimp only
    exact tfind?_append_single_other t _ (fun hc => h hc.symm)
  | some s =>
    dsimp only
    exact tfind?_treplace_other t _ h

theorem valsOf_append (k : List ℕ) :
    ∀ (l₁ l₂ : List (List ℕ)), valsOf k (l₁ ++ l₂) = valsOf k l₁ ++ valsOf k l₂ := by
  intro l₁
  induction l₁ with
  | nil => intro l₂; rfl
  | cons l ls ih =>
    intro l₂
    rw [List.cons_append]
    cases hp : parseLine l with
    | ok kv =>
      simp only [valsOf, hp]
      by_cases hk : kv.1 = k
      · rw [if_pos hk, if_pos hk, ih, List.cons_append]
      · rw [if_neg hk, if_neg hk, ih]
    | err e =>
      simp only [valsOf, hp]
      exact ih l₂
    | panicked =>
      simp only [valsOf, hp]
      exact ih l₂

theorem foldl_fmin_assoc : ∀ (l : List F32) (a b : F32),
    fmin a (l.foldl fmin b) = l.foldl fmin (fmin a b) := by
  intro l
  induction l with
  | nil => intro a b; rfl
  | cons v tl ih =>
    intro a b
    rw [List.foldl_cons, List.foldl_cons, ih, fmin_assoc]

theorem foldl_fmax_assoc : ∀ (l : List F32) (a b : F32),
    fmax a (l.foldl fmax b) = l.foldl fmax (fmax a b) := by
  intro l
  induction l with
  | nil => intro a b; rfl
  | cons v tl ih =>
    intro a b
    rw [List.foldl_cons, List.foldl_cons, ih, fmax_assoc]

theorem foldl_update_components : ∀ (vs : List F32) (s : Stats), s.count < 2 ^ 32 →
    (vs.foldl Stats.update s).min = vs.foldl fmin s.min ∧
    (vs.foldl Stats.update s).max = vs.foldl fmax s.max ∧
    (vs.foldl Stats.update s).count = (s.count + vs.length) % 2 ^ 32 ∧
    (vs.foldl Stats.update s).count < 2 ^ 32 := by
  intro vs
  induction vs with
  | nil =>
    intro s hs
    exact ⟨rfl, rfl, by simp only [List.foldl_nil, List.length_nil]; omega, hs⟩
  | cons v tl ih =>
    intro s hs
    obtain ⟨h1, h2, h3, h4⟩ := ih (s.update v) (u32add_lt s.count 1)
    refine ⟨?_, ?_, ?_, ?_⟩
    · rw [List.foldl_cons, List.foldl_cons]
      exact h1
    · rw [List.foldl_cons, List.foldl_cons]
      exact h2
    · rw [List.foldl_cons, h3]
      have hc : (s.update v).count = (s.count + 1) % 2 ^ 32 := rfl
      rw [hc, List.length_cons]
      omega
    · rw [List.foldl_cons]
      exact h4

theorem tfind?_mem : ∀ (t : Table) {k : List ℕ} {s : Stats}, tfind? t k = some s →
    ∃ p ∈ t, p.2 = s := by
  intro t k s h
  unfold tfind? at h
  cases hf : t.find? (fun p => p.1 = k) with
  | none =>
    rw [hf] at h
    simp at h
  | some p =>
    rw [hf] at h
    simp at h
    exact ⟨p, List.mem_of_find?_eq_some hf, h⟩

theorem agg_find :
    ∀ (ls : List (List ℕ)) (t : Table), (∀ l ∈ ls, (parseLine l).isOk = true) →
      ∃ t', aggLines t ls = .ok t' ∧ ∀ k,
        tfind? t' k =
          match tfind? t k with
          | some s => some ((valsOf k ls).foldl Stats.update s)
          | none =>
            (match valsOf k ls with
             | [] => none
             | v :: vs => some (vs.foldl Stats.update (Stats.singleton v))) := by
  intro ls
  induction ls with
  | nil =>
    intro t _
    refine ⟨t, rfl, fun k => ?_⟩
    cases hf : tfind? t k with
    | some s => rfl
    | none => rfl
  | cons l rest ih =>
    intro t hok
    have hl : (parseLine l).isOk = true := hok l (List.mem_cons_self l rest)
    cases hp : parseLine l with
    | err e => rw [hp] at hl; simp [Outcome.isOk] at hl
    | panicked => rw [hp] at hl; simp [Outcome.isOk] at hl
    | ok kv =>
      obtain ⟨t', ht', hchar⟩ :=
        ih (tableUpdate t kv.1 kv.2) (fun x hx => hok x (List.mem_cons_of_mem l hx))
      refine ⟨t', ?_, fun k => ?_⟩
      · rw [aggLines, hp]
        exact ht'
      · rw [hchar k]
        by_cases hk : kv.1 = k
        · subst hk
          have hv : valsOf kv.1 (l :: rest) = kv.2 :: valsOf kv.1 rest := by
            simp [valsOf, hp]
          rw [tfind?_update_same, hv]
          cases hf : tfind? t kv.1 with
          | some s => rfl
          | none => rfl
        · have hv : valsOf k (l :: rest) = valsOf k rest := by
            simp only [valsOf, hp, if_neg hk]
          rw [hv, tfind?_update_other t kv.2 (fun hc => hk hc.symm)]

theorem mergeInto_find_absent : ∀ (t g : Table) (k : List ℕ), k ∉ t.map (·.1) →
    tfind? (mergeInto g t) k = tfind? g k := by
  intro t
  induction t with
  | nil => intro g k _; rfl
  | cons p rest ih =>
    intro g k hk
    rw [List.map_cons, List.mem_cons] at hk
    push_neg at hk
    obtain ⟨hk1, hk2⟩ := hk
    rw [mergeInto_cons]
    cases hf : tfind? g p.1 with
    | none =>
      dsimp only
      rw [ih _ k hk2, tfind?_append_single_other g _ (fun hc => hk1 hc.symm)]
    | some cur =>
      dsimp only
      rw [ih _ k hk2, tfind?_treplace_other g _ hk1]

theorem mergeInto_find : ∀ (t g : Table), (t.map (·.1)).Nodup →
    ∀ k, tfind? (mergeInto g t) k =
      match tfind? t k with
      | none => tfind? g k
      | some s =>
        (match tfind? g k with
         | none => some (mergeStats statsDefault s)
         | some cur => some (mergeStats cur s)) := by
  intro t
  induction t with
  | nil => intro g _ k; rfl
  | cons p rest ih =>
    intro g hnd k
    rw [List.map_cons] at hnd
    have hp1 : p.1 ∉ rest.map (·.1) := (List.nodup_cons.mp hnd).1
    have hndr : (rest.map (·.1)).Nodup := (List.nodup_cons.mp hnd).2
    rw [mergeInto_cons, tfind?_cons]
    by_cases hk : p.1 = k
    · subst hk
      rw [if_pos rfl]
      cases hf : tfind? g p.1 with
      | none =>
        dsimp only
        rw [mergeInto_find_absent rest _ p.1 hp1, tfind?_append_of_none g _ hf]
        exact tfind?_single_same p.1 (mergeStats statsDefault p.2)
      | some cur =>
        dsimp only
        rw [mergeInto_find_absent rest _ p.1 hp1]
        exact tfind?_treplace_same g _ hf
    · rw [if_neg hk]
      cases hf : tfind? g p.1 with
      | none =>
        dsimp only
        rw [ih _ hndr k, tfind?_append_single_other g _ hk]
      | some cur =>
        dsimp only
        rw [ih _ hndr k, tfind?_treplace_other g _ (fun hc => hk hc.symm)]

theorem mmc_merge (a b : Stats) :
    mmc (mergeStats a b) =
      (fmin a.min b.min, fmax a.max b.max, (a.count + b.count) % 2 ^ 32) := rfl

theorem mmcF_append (o : Option (F32 × F32 × ℕ)) (vs₁ vs₂ : List F32) :
    mmcF (mmcF o vs₁) vs₂ = mmcF o (vs₁ ++ vs₂) := by
  cases o with
  | none =>
    cases vs₁ with
    | nil => rfl
    | cons v tl =>
      simp only [mmcF, List.cons_append, List.foldl_cons, List.foldl_append, Prod.mk.injEq,
        List.length_cons, List.length_append, Option.some.injEq]
      exact ⟨by trivial, by trivial, by omega⟩
  | some x =>
    cases vs₁ with
    | nil =>
      simp only [mmcF, List.nil_append, List.foldl_nil, Prod.mk.injEq, List.length_nil,
        Option.some.injEq]
      exact ⟨by trivial, by trivial, by omega⟩
    | cons v tl =>
      simp only [mmcF, List.cons_append, List.foldl_cons, List.foldl_append, Prod.mk.injEq,
        List.length_cons, List.length_append, Option.some.injEq]
      exact ⟨by trivial, by trivial, by omega⟩

theorem mmcF_nil (g : Table) (hg : ∀ p ∈ g, p.2.count < 2 ^ 32) (k : List ℕ) :
    mmcF (mmcOf (tfind? g k)) [] = mmcOf (tfind? g k) := by
  cases hf : tfind? g k with
  | none => rfl
  | some s =>
    obtain ⟨p, hp, hps⟩ := tfind?_mem g hf
    have hb : s.count < 2 ^ 32 := by rw [← hps]; exact hg p hp
    show mmcF (some (mmc s)) [] = some (mmc s)
    simp only [mmcF, List.foldl_nil, List.length_nil, mmc, Option.some.injEq, Prod.mk.injEq]
    exact ⟨by trivial, by trivial, by omega⟩

theorem merge_step_char (g : Table) (tc : Table) (k : List ℕ)
    (hndtc : (tc.map (·.1)).Nodup)
    (hg : ∀ p ∈ g, p.2.count < 2 ^ 32)
    (vsl : List F32)
    (hchar : tfind? tc k =
      match vsl with
      | [] => none
      | v :: vs => some (vs.foldl Stats.update (Stats.singleton v))) :
    mmcOf (tfind? (mergeInto g tc) k) = mmcF (mmcOf (tfind? g k)) vsl := by
  rw [mergeInto_find tc g hndtc k, hchar]
  cases vsl with
  | nil =>
    dsimp only
    exact (mmcF_nil g hg k).symm
  | cons v vs =>
    dsimp only
    obtain ⟨hm1, hm2, hm3, _⟩ :=
      foldl_update_components vs (Stats.singleton v) (by norm_num [Stats.singleton])
    cases hgf : tfind? g k with
    | none =>
      dsimp only
      show some (mmc (mergeStats statsDefault (vs.foldl Stats.update (Stats.singleton v)))) =
        mmcF none (v :: vs)
      rw [mmc_merge, hm1, hm2, hm3, foldl_fmin_assoc, foldl_fmax_assoc]
      show some (vs.foldl fmin (fmin statsDefault.min v), vs.foldl fmax (fmax statsDefault.max v),
        (0 + (1 + vs.length) % 2 ^ 32) % 2 ^ 32) =
        some ((v :: vs).foldl fmin statsDefault.min, (v :: vs).foldl fmax statsDefault.max,
          (v :: vs).length % 2 ^ 32)
      rw [List.foldl_cons, List.foldl_cons, List.length_cons]
      exact congrArg (fun z => some (vs.foldl fmin (fmin statsDefault.min v),
        vs.foldl fmax (fmax statsDefault.max v), z)) (by omega)
    | some cur =>
      dsimp only
      show some (mmc (mergeStats cur (vs.foldl Stats.update (Stats.singleton v)))) =
        mmcF (some (mmc cur)) (v :: vs)
      rw [mmc_merge, hm1, hm2, hm3, foldl_fmin_assoc, foldl_fmax_assoc]
      show some (vs.foldl fmin (fmin cur.min v), vs.foldl fmax (fmax cur.max v),
        (cur.count + (1 + vs.length) % 2 ^ 32) % 2 ^ 32) =
        some ((v :: vs).foldl fmin (mmc cur).1, (v :: vs).foldl fmax (mmc cur).2.1,
          ((mmc cur).2.2 + (v :: vs).length) % 2 ^ 32)
      rw [List.foldl_cons, List.foldl_cons, List.length_cons]
      show some (vs.foldl fmin (fmin cur.min v), vs.foldl fmax (fmax cur.max v),
        (cur.count + (1 + vs.length) % 2 ^ 32) % 2 ^ 32) =
        some (vs.foldl fmin (fmin cur.min v), vs.foldl fmax (fmax cur.max v),
          (cur.count + (vs.length + 1)) % 2 ^ 32)
      exact congrArg (fun z => some (vs.foldl fmin (fmin cur.min v),
        vs.foldl fmax (fmax cur.max v), z)) (by omega)

theorem collect_find (buf : List ℕ) :
    ∀ (cs : List (ℕ × ℕ)) (g : Table),
      (∀ c ∈ cs, ∀ l ∈ linesIn buf c.2 c.1, (parseLine l).isOk = true) →
      (∀ p ∈ g, p.2.count < 2 ^ 32) →
      ∃ G, collectTables buf cs g = .ok G ∧ ∀ k,
        mmcOf (tfind? G k) =
          mmcF (mmcOf (tfind? g k))
            (valsOf k (cs.flatMap (fun c => linesIn buf c.2 c.1))) := by
  intro cs
  induction cs with
  | nil =>
    intro g _ hg
    refine ⟨g, rfl, fun k => ?_⟩
    rw [List.flatMap_nil]
    exact (mmcF_nil g hg k).symm
  | cons c rest ih =>
    intro g hok hg
    obtain ⟨tc, htc, hchar⟩ :=
      agg_find (linesIn buf c.2 c.1) [] (fun l hl => hok c (List.mem_cons_self c rest) l hl)
    obtain ⟨tc', htc', _, hbc, hnd⟩ :=
      aggLines_ok (linesIn buf c.2 c.1) []
        (fun l hl => hok c (List.mem_cons_self c rest) l hl) (by simp)
    have heqt : tc = tc' := by
      have h := htc.symm.trans htc'
      injection h
    subst heqt
    have hndtc : (tc.map (·.1)).Nodup := hnd (by simp)
    obtain ⟨hmc, hmb⟩ := mergeInto_ok tc g hndtc hbc hg
    obtain ⟨G, hG, hGchar⟩ := ih (mergeInto g tc)
      (fun c' hc' l hl => hok c' (List.mem_cons_of_mem c hc') l hl) hmb
    refine ⟨G, ?_, fun k => ?_⟩
    · have hcs : chunk_stats buf c = .ok tc := by
        show chunkLoop buf c.2 [] c.1 = .ok tc
        rw [chunkLoop_eq_agg buf c.2 c.1 []]
        exact htc
      rw [collectTables, hcs]
      exact hG
    · rw [hGchar k, List.flatMap_cons, valsOf_append, ← mmcF_append]
      congr 1
      exact merge_step_char g tc k hndtc hg _ (hchar k)

/-- The min/max/count components of the final table are exactly the
componentwise fold of the key's values in input order, for every
worker count. -/
theorem final_find (buf : List ℕ) (n : ℕ) (hn : 1 ≤ n) (hw : wellFormed buf) :
    ∃ t, finalTable buf n = .ok t ∧
      ∀ k, mmcOf (tfind? t k) = mmcF none (valsOf k (allLines buf)) := by
  have hpart := chunks_flat_lines buf hn
  obtain ⟨G, hG, hchar⟩ := collect_find buf (chunks buf n) []
    (fun c hc l hl => hw l (by rw [← hpart]; exact List.mem_flatMap.mpr ⟨c, hc, hl⟩))
    (by simp)
  refine ⟨G, hG, fun k => ?_⟩
  have h := hchar k
  rw [hpart] at h
  exact h

/-- C1 (amended): for every well-formed input, the per-key min, max
and count of the final table are identical for every worker count —
each equals the componentwise fold over the key's values in input
order; the combine operation is commutative, and its min, max and
count components are associative.  Only the f32 `sum` component is
order-sensitive, so sums may differ between worker counts (see
`c1_counterexample`). -/
theorem c1_amended (buf : List ℕ) (n₁ n₂ : ℕ) (h1 : 1 ≤ n₁) (h2 : 1 ≤ n₂)
    (hw : wellFormed buf) :
    (∃ t₁ t₂, finalTable buf n₁ = .ok t₁ ∧ finalTable buf n₂ = .ok t₂ ∧
      ∀ k, mmcOf (tfind? t₁ k) = mmcOf (tfind? t₂ k)) ∧
    (∀ a b : Stats, mergeStats a b = mergeStats b a) ∧
    (∀ a b c : Stats,
      mmc (mergeStats (mergeStats a b) c) = mmc (mergeStats a (mergeStats b c))) := by
  refine ⟨?_, ?_, ?_⟩
  · obtain ⟨t₁, ht₁, hc₁⟩ := final_find buf n₁ h1 hw
    obtain ⟨t₂, ht₂, hc₂⟩ := final_find buf n₂ h2 hw
    exact ⟨t₁, t₂, ht₁, ht₂, fun k => (hc₁ k).trans (hc₂ k).symm⟩
  · intro a b
    simp only [mergeStats, Stats.mk.injEq]
    exact ⟨fmin_comm _ _, fmax_comm _ _, fadd_comm _ _, u32add_comm _ _⟩
  · intro a b c
    simp only [mmc, mergeStats, Prod.mk.injEq]
    exact ⟨fmin_assoc _ _ _, fmax_assoc _ _ _, u32add_assoc _ _ _⟩

/-- Witness for `c1_amended` on `bufC1` with one and two workers. -/
theorem c1_amended_witness :
    (1 ≤ 1 ∧ 1 ≤ 2 ∧ wellFormed bufC1) ∧
    ((∃ t₁ t₂, finalTable bufC1 1 = .ok t₁ ∧ finalTable bufC1 2 = .ok t₂ ∧
      ∀ k, mmcOf (tfind? t₁ k) = mmcOf (tfind? t₂ k)) ∧
     (∀ a b : Stats, mergeStats a b = mergeStats b a) ∧
     (∀ a b c : Stats,
       mmc (mergeStats (mergeStats a b) c) = mmc (mergeStats a (mergeStats b c)))) :=
  ⟨⟨by decide, by decide, by decide⟩, c1_amended bufC1 1 2 (by decide) (by decide) (by decide)⟩
